import Mathlib

/-!
Shallow embedding of the maze generation engine from `src/maze.rs`
(`Heavenston/rust-maze-generator`), together with proofs of the spec's
testable properties.

The embedding mirrors the Rust source:
* `MazeCell` models the `bitfield!` struct with flags `visited` (bit 0),
  `right` (bit 1), `bottom` (bit 2);
* `Position` models the `Position { x, y }` struct (`usize` coordinates
  become `Nat`; the subtractions in `Direction::apply` are guarded by the
  bounds checks in `gen_step`, so truncated `Nat` subtraction agrees with
  the source);
* `Maze` carries `width`, `height`, `cursor`, `tail` (the `Vec<Position>`
  stack, top of stack = head of list), `cells` (the `Vec<MazeCell>`,
  indexed by `x + y * width`) and an `Rng`;
* `Maze.gen_step`, `Maze.generate`, `Maze.new`, `Maze.from_seed`,
  `Maze.get_cell`, `Maze.get_cell_offset` follow the Rust functions of the
  same names.  Vector indexing panics in Rust; the panic of `get_cell` is
  modelled by `Maze.get_cell?` returning `none`, and the `cells[0]` panic
  of the constructors by `Option`-valued constructors.
-/

namespace MazeRs

/-- One cell of the maze.  The source packs three boolean flags into a
`u8` bitfield: `visited` (bit 0), `right` (bit 1, right wall present),
`bottom` (bit 2, bottom wall present).  `MazeCell::new()` is `MazeCell(0)`,
i.e. all flags false. -/
structure MazeCell where
  visited : Bool
  right : Bool
  bottom : Bool
deriving DecidableEq, Repr

/-- `MazeCell::new()`: the zero bitfield. -/
def MazeCell.new : MazeCell := ⟨false, false, false⟩

/-- The `Position { x: usize, y: usize }` struct. -/
structure Position where
  x : Nat
  y : Nat
deriving DecidableEq, Repr

/-- `Position::new`. -/
def Position.new (x y : Nat) : Position := ⟨x, y⟩

/-- The four candidate directions of `gen_step`. -/
inductive Direction where
  | top
  | right
  | left
  | bottom
deriving DecidableEq, Repr, Fintype

/-- `Direction::apply`: move a position one step.  The `usize`
subtractions for `top` and `left` are reached only under the guards
`y != 0` resp. `x != 0` of `gen_step`, where `Nat` truncated subtraction
agrees with `usize` subtraction. -/
def Direction.apply (d : Direction) (pos : Position) : Position :=
  match d with
  | .top => ⟨pos.x, pos.y - 1⟩
  | .right => ⟨pos.x + 1, pos.y⟩
  | .left => ⟨pos.x - 1, pos.y⟩
  | .bottom => ⟨pos.x, pos.y + 1⟩

/-- Modelled from the spec: the pseudo-random source.  The source uses
`rand::rngs::SmallRng` with `SliceRandom::shuffle`, code of the external
`rand` crate, not of this repository.  Spec §9 states that any seedable
PRNG together with any unbiased shuffle is an acceptable implementation
choice.  We model the randomness as the stream of shuffled candidate
arrays itself: `stream n` is the shuffled `[Left, Right, Top, Bottom]`
array consumed by the `n`-th call to `gen_step`, and `idx` counts how many
shuffles have been consumed. -/
structure Rng where
  stream : Nat → List Direction
  idx : Nat

/-- Draw the next shuffled candidate array and advance the generator. -/
def Rng.next (r : Rng) : List Direction × Rng :=
  (r.stream r.idx, ⟨r.stream, r.idx + 1⟩)

/-- A faithful random source: every shuffle of the four-element array
`[Left, Right, Top, Bottom]` is a permutation of it. -/
def GoodRng (r : Rng) : Prop :=
  ∀ n, (r.stream n).Perm [Direction.left, Direction.right, Direction.top, Direction.bottom]

/-- The `Maze` struct. -/
structure Maze where
  width : Nat
  height : Nat
  cursor : Position
  tail : List Position
  cells : List MazeCell
  rng : Rng

namespace Maze

/-- `Maze::get_cell_offset`: linear index `x + y * width`. -/
def get_cell_offset (m : Maze) (x y : Nat) : Nat :=
  x + y * m.width

/-- `Maze::get_cell` models `self.cells[self.get_cell_offset(x, y)]`.
Rust `Vec` indexing panics when the offset is out of range; the panic is
modelled by `none`. -/
def get_cell? (m : Maze) (x y : Nat) : Option MazeCell :=
  m.cells.get? (m.get_cell_offset x y)

/-- Total version of `get_cell` used inside `gen_step`, where every access
is guarded in bounds (see the cursor invariants below). -/
def get_cell (m : Maze) (x y : Nat) : MazeCell :=
  (m.get_cell? x y).getD MazeCell.new

/-- Update the cell at `(x, y)` (the `get_cell_mut` accesses of the
source).  `List.set` leaves the list unchanged out of range; inside
`gen_step` every access is guarded in bounds. -/
def set_cell (m : Maze) (x y : Nat) (f : MazeCell → MazeCell) : Maze :=
  { m with cells := m.cells.set (m.get_cell_offset x y) (f (m.get_cell x y)) }

/-- The direction-selection loop of `gen_step`: scan the shuffled
candidate array in order and select the first direction whose target is
inside the grid and not yet visited; `none` when no direction qualifies.
Each arm mirrors the corresponding `match dir` arm of the source
(`continue` on the bounds check, `continue` when the target is visited,
otherwise `dest = Some(dir); break`). -/
def selectDest (m : Maze) : List Direction → Option Direction
  | [] => none
  | d :: rest =>
    match d with
    | .bottom =>
      if m.cursor.y ≥ m.height - 1 then selectDest m rest
      else if (m.get_cell m.cursor.x (m.cursor.y + 1)).visited then selectDest m rest
      else some .bottom
    | .left =>
      if m.cursor.x = 0 then selectDest m rest
      else if (m.get_cell (m.cursor.x - 1) m.cursor.y).visited then selectDest m rest
      else some .left
    | .right =>
      if m.cursor.x ≥ m.width - 1 then selectDest m rest
      else if (m.get_cell (m.cursor.x + 1) m.cursor.y).visited then selectDest m rest
      else some .right
    | .top =>
      if m.cursor.y = 0 then selectDest m rest
      else if (m.get_cell m.cursor.x (m.cursor.y - 1)).visited then selectDest m rest
      else some .top

/-- The wall-clearing and cursor move of `gen_step` once a direction was
selected: moving `Right`/`Bottom` clears the current cell's wall flag and
then moves the cursor; moving `Left`/`Top` moves the cursor first and then
clears the new cell's flag. -/
def applyMove (m : Maze) (dir : Direction) : Maze :=
  match dir with
  | .bottom =>
    let m2 := m.set_cell m.cursor.x m.cursor.y (fun c => { c with bottom := false })
    { m2 with cursor := dir.apply m2.cursor }
  | .right =>
    let m2 := m.set_cell m.cursor.x m.cursor.y (fun c => { c with right := false })
    { m2 with cursor := dir.apply m2.cursor }
  | .top =>
    let m2 := { m with cursor := dir.apply m.cursor }
    m2.set_cell m2.cursor.x m2.cursor.y (fun c => { c with bottom := false })
  | .left =>
    let m2 := { m with cursor := dir.apply m.cursor }
    m2.set_cell m2.cursor.x m2.cursor.y (fun c => { c with right := false })

/-- `Maze::gen_step`: shuffle the candidate array, select a destination,
and either carve a passage (clear the wall, move the cursor, mark the new
cell visited, push it on the tail, return `false`) or backtrack (pop the
tail into the cursor, return `false`; `true` once the tail is empty). -/
def gen_step (m : Maze) : Maze × Bool :=
  let (next_pos, rng2) := m.rng.next
  let m1 : Maze := { m with rng := rng2 }
  match selectDest m1 next_pos with
  | some dir =>
    let m2 := applyMove m1 dir
    let m3 := m2.set_cell m2.cursor.x m2.cursor.y (fun c => { c with visited := true })
    ({ m3 with tail := m3.cursor :: m3.tail }, false)
  | none =>
    match m1.tail with
    | [] => (m1, true)
    | pos :: rest => ({ m1 with cursor := pos, tail := rest }, false)

/-- The loop body of `Maze::generate`, iterated a concrete number of
times: run `gen_step` up to `n` times, returning `true` as soon as a step
reports completion. -/
def generateN (m : Maze) : Nat → Maze × Bool
  | 0 => (m, false)
  | n + 1 =>
    let (m2, done) := m.gen_step
    if done then (m2, true) else generateN m2 n

/-- `usize::MAX` of the compilation target.  The crate is built with
`wasm_bindgen` for a 32-bit wasm target, so `usize::MAX = 2^32 - 1`. -/
def usizeMax : Nat := 2 ^ 32 - 1

/-- `Maze::generate`: `for _ in 0..limit.unwrap_or(usize::MAX)` around
`gen_step`, stopping early with `true` when a step completes. -/
def generate (m : Maze) (limit : Option Nat) : Maze × Bool :=
  generateN m (limit.getD usizeMax)

/-- Common constructor body of `Maze::new` and `Maze::from_seed`: all
cells start with both walls and `visited = false`, the cursor and the one
tail entry are `(0, 0)`, and `this.cells[0].set_visited(true)` marks the
start cell.  That indexing panics (modelled by `none`) when the cell store
`vec![default_cell; width * height]` is empty. -/
def mkMaze (width height : Nat) (rng : Rng) : Option Maze :=
  let default_cell : MazeCell := { MazeCell.new with bottom := true, right := true }
  let cells := List.replicate (width * height) default_cell
  if width * height = 0 then
    none
  else
    some
      { width := width
        height := height
        cursor := Position.new 0 0
        tail := [Position.new 0 0]
        cells := cells.set 0 { default_cell with visited := true }
        rng := rng }

/-- `Maze::new`: non-deterministic seeding (`SmallRng::from_entropy()`).
The entropy source is external input; the embedding takes the resulting
random source as a parameter. -/
def new (width height : Nat) (entropy : Rng) : Option Maze :=
  mkMaze width height entropy

/-- Modelled from the spec: a concrete seedable PRNG standing in for
`SmallRng::seed_from_u64` plus the Fisher–Yates `shuffle` of the `rand`
crate (external code; spec §9 allows any seedable PRNG with an unbiased
shuffle).  A 64-bit linear congruential generator drives a Fisher–Yates
style shuffle of `[Left, Right, Top, Bottom]`: for each shuffle three
draws pick the element to place next. -/
def lcg (s : Nat) : Nat :=
  (6364136223846793005 * s + 1442695040888963407) % 2 ^ 64

/-- Iterated LCG state: the `n`-th 64-bit state derived from `seed`. -/
def lcgAt (seed : Nat) : Nat → Nat
  | 0 => lcg (seed % 2 ^ 64)
  | n + 1 => lcg (lcgAt seed n)

/-- Remove the element at index `i % l.length` from a non-empty list,
returning it and the remainder (one Fisher–Yates draw). -/
def pickOut (l : List Direction) (i : Nat) : Option (Direction × List Direction) :=
  match l.get? (i % l.length) with
  | none => none
  | some d => some (d, l.eraseIdx (i % l.length))

/-- Fisher–Yates style shuffle of the four-element candidate array driven
by three draws: repeatedly pick a random remaining element and place it
next. -/
def shuffle4 (r1 r2 r3 : Nat) : List Direction :=
  let l0 := [Direction.left, Direction.right, Direction.top, Direction.bottom]
  match pickOut l0 r1 with
  | none => l0
  | some (d1, l1) =>
    match pickOut l1 r2 with
    | none => [d1]
    | some (d2, l2) =>
      match pickOut l2 r3 with
      | none => [d1, d2]
      | some (d3, l3) => d1 :: d2 :: d3 :: l3

/-- The stream of shuffled candidate arrays produced from a seed: the
`n`-th `gen_step` call shuffles `[Left, Right, Top, Bottom]` with draws
taken from the LCG states `3n, 3n+1, 3n+2`. -/
def seedStream (seed : Nat) (n : Nat) : List Direction :=
  shuffle4 (lcgAt seed (3 * n)) (lcgAt seed (3 * n + 1)) (lcgAt seed (3 * n + 2))

/-- `Maze::from_seed`: deterministic seeding. -/
def from_seed (width height : Nat) (seed : Nat) : Option Maze :=
  mkMaze width height ⟨seedStream seed, 0⟩

/-- The start position `(0, 0)`. -/
def startPos : Position := Position.new 0 0

/-- A position lies inside the grid. -/
def inBounds (m : Maze) (p : Position) : Prop :=
  p.x < m.width ∧ p.y < m.height

instance (m : Maze) (p : Position) : Decidable (m.inBounds p) := by
  unfold inBounds; infer_instance

/-- The cell at `p` is marked visited. -/
def visitedAt (m : Maze) (p : Position) : Prop :=
  (m.get_cell p.x p.y).visited = true

instance (m : Maze) (p : Position) : Decidable (m.visitedAt p) := by
  unfold visitedAt; infer_instance

/-- Two grid positions sharing an edge. -/
def Adjacent (p q : Position) : Prop :=
  (p.x + 1 = q.x ∧ p.y = q.y) ∨ (q.x + 1 = p.x ∧ p.y = q.y) ∨
    (p.x = q.x ∧ p.y + 1 = q.y) ∨ (p.x = q.x ∧ q.y + 1 = p.y)

instance (p q : Position) : Decidable (Adjacent p q) := by
  unfold Adjacent; infer_instance

/-- Two grid positions touching only at a corner. -/
def DiagAdjacent (p q : Position) : Prop :=
  (p.x + 1 = q.x ∨ q.x + 1 = p.x) ∧ (p.y + 1 = q.y ∨ q.y + 1 = p.y)

instance (p q : Position) : Decidable (DiagAdjacent p q) := by
  unfold DiagAdjacent; infer_instance

/-- The wall between two adjacent in-bounds cells has been cleared
(following the asymmetric ownership convention: the edge to the right
neighbour lives in the left cell's `right` flag, the edge to the cell
below lives in the upper cell's `bottom` flag). -/
def carvedBetween (m : Maze) (p q : Position) : Prop :=
  m.inBounds p ∧ m.inBounds q ∧
    ((p.x + 1 = q.x ∧ p.y = q.y ∧ (m.get_cell p.x p.y).right = false) ∨
      (q.x + 1 = p.x ∧ q.y = p.y ∧ (m.get_cell q.x q.y).right = false) ∨
      (p.x = q.x ∧ p.y + 1 = q.y ∧ (m.get_cell p.x p.y).bottom = false) ∨
      (p.x = q.x ∧ q.y + 1 = p.y ∧ (m.get_cell q.x q.y).bottom = false))

instance (m : Maze) (p q : Position) : Decidable (m.carvedBetween p q) := by
  unfold carvedBetween; infer_instance

/-- A cell strictly inside the grid (not on the outer ring). -/
def interior (m : Maze) (p : Position) : Prop :=
  0 < p.x ∧ p.x + 1 < m.width ∧ 0 < p.y ∧ p.y + 1 < m.height

instance (m : Maze) (p : Position) : Decidable (m.interior p) := by
  unfold interior; infer_instance

/-- All in-bounds positions of the grid, as a finset. -/
def allPositions (m : Maze) : Finset Position :=
  (Finset.range m.width ×ˢ Finset.range m.height).image fun xy => Position.new xy.1 xy.2

/-- Number of visited cells. -/
def visitedCount (m : Maze) : Nat :=
  (m.allPositions.filter fun p => m.visitedAt p).card

/-- Number of cleared wall flags, counting each `right`/`bottom` clear
once: a `right` clear at an in-bounds cell plus a `bottom` clear at an
in-bounds cell. -/
def clearedCount (m : Maze) : Nat :=
  (m.allPositions.filter fun p => (m.get_cell p.x p.y).right = false).card +
    (m.allPositions.filter fun p => (m.get_cell p.x p.y).bottom = false).card

/-- The running count invariant of the generator: each forward move
clears exactly one wall and visits exactly one new cell, so the number of
cleared walls is always one less than the number of visited cells. -/
def CountOK (m : Maze) : Prop :=
  m.clearedCount + 1 = m.visitedCount

/-- Every cell of the grid is visited. -/
def allVisited (m : Maze) : Prop :=
  ∀ p, m.inBounds p → m.visitedAt p

instance (m : Maze) : Decidable (m.allVisited) := by
  unfold allVisited
  refine decidable_of_iff (∀ p ∈ m.allPositions, m.visitedAt p) ⟨?_, ?_⟩
  · intro h p hp
    refine h p ?_
    simp only [allPositions, Finset.mem_image, Finset.mem_product, Finset.mem_range]
    exact ⟨(p.x, p.y), ⟨hp.1, hp.2⟩, rfl⟩
  · intro h p hp
    simp only [allPositions, Finset.mem_image, Finset.mem_product, Finset.mem_range] at hp
    obtain ⟨⟨a, b⟩, ⟨ha, hb⟩, rfl⟩ := hp
    exact h _ ⟨ha, hb⟩

/-- A cell is reachable from another through cleared walls. -/
def Reachable (m : Maze) (p q : Position) : Prop :=
  Relation.ReflTransGen m.carvedBetween p q

/-- One flood-fill expansion step over cleared walls. -/
def reachStep (m : Maze) (s : Finset Position) : Finset Position :=
  s ∪ m.allPositions.filter fun q => ∃ p ∈ s, m.carvedBetween p q

/-- Iterated flood fill from the start cell. -/
def reachSet (m : Maze) : Nat → Finset Position
  | 0 => {startPos}
  | n + 1 => reachStep m (reachSet m n)

/-- Every in-bounds neighbour of `c` is visited (the scan of `gen_step`
can never move forward from `c` again). -/
def Dead (m : Maze) (c : Position) : Prop :=
  ∀ u, m.inBounds u → Adjacent c u → m.visitedAt u

/-- The neighbours of `c` whose shared wall has been cleared. -/
def carvedNbrs (m : Maze) (c : Position) : Finset Position :=
  m.allPositions.filter fun q => Adjacent c q ∧ m.carvedBetween c q

/-- A cell that has carved at least two neighbour walls (the start cell,
which has no parent wall, only one). -/
def edges2 (m : Maze) (c : Position) : Prop :=
  2 ≤ (m.carvedNbrs c).card ∨ (c = startPos ∧ 1 ≤ (m.carvedNbrs c).card)

/-- The tail invariant: every tail cell other than the cursor has carved
at least two neighbour walls (start cell: one); a tail cell equal to the
cursor was just pushed and already has its parent wall (start cell:
possibly none yet). -/
def TailOK (m : Maze) : Prop :=
  (∀ t ∈ m.tail, t ≠ m.cursor → m.edges2 t ∨ m.Dead t) ∧
    (∀ t ∈ m.tail, t = m.cursor →
      t = startPos ∨ 1 ≤ (m.carvedNbrs t).card ∨ m.Dead t)

/-- The cursor invariant: the cursor either sits on the tail (just
pushed), or it was popped off the tail, in which case it is either dead or
has carved at least two neighbour walls. -/
def CursorOK (m : Maze) : Prop :=
  m.cursor ∈ m.tail ∨ m.Dead m.cursor ∨ m.edges2 m.cursor

/-- The invariant of inactive visited cells (neither cursor nor on the
tail): whenever such a cell still has an unvisited in-bounds neighbour, it
lies strictly inside the grid and its three other neighbour walls are all
carved. -/
def InactiveOK (m : Maze) : Prop :=
  ∀ v, m.inBounds v → m.visitedAt v → v ≠ m.cursor → v ∉ m.tail →
    ∀ u, m.inBounds u → Adjacent v u → ¬m.visitedAt u →
      m.interior v ∧ ∀ q, m.inBounds q → Adjacent v q → q ≠ u → m.carvedBetween v q

/-- The carved walls form a forest: some parent pointer with strictly
decreasing rank orients every carved wall. -/
def TreeInv (m : Maze) : Prop :=
  ∃ par : Position → Position, ∃ rank : Position → Nat,
    ∀ p q, m.carvedBetween p q →
      (par p = q ∧ rank q < rank p) ∨ (par q = p ∧ rank p < rank q)

/-- Every visited cell is reachable from the start cell through carved
walls. -/
def ReachInv (m : Maze) : Prop :=
  ∀ p, m.inBounds p → m.visitedAt p → m.Reachable startPos p

/-- Iterate `gen_step`, keeping only the state. -/
def stepIter (m : Maze) : Nat → Maze
  | 0 => m
  | n + 1 => (stepIter m n).gen_step.1

/-- The graph whose vertices are the grid cells and whose edges are the
cleared walls. -/
def mazeGraph (m : Maze) : SimpleGraph (Fin m.width × Fin m.height) where
  Adj a b := m.carvedBetween (Position.new a.1 a.2 ) (Position.new b.1 b.2 )
  symm := by
    intro a b h
    obtain ⟨hb1, hb2, h⟩ := h
    refine ⟨hb2, hb1, ?_⟩
    rcases h with h | h | h | h
    · exact Or.inr (Or.inl ⟨h.1, h.2.1, h.2.2⟩)
    · exact Or.inl ⟨h.1, h.2.1, h.2.2⟩
    · exact Or.inr (Or.inr (Or.inr ⟨h.1.symm, h.2.1, h.2.2⟩))
    · exact Or.inr (Or.inr (Or.inl ⟨h.1.symm, h.2.1, h.2.2⟩))
  loopless := by
    intro a h
    obtain ⟨-, -, h⟩ := h
    rcases h with h | h | h | h <;> omega

/-- The rng after one shuffle has been consumed. -/
def advRng (r : Rng) : Rng :=
  ⟨r.stream, r.idx + 1⟩

/-- The shuffled candidate array consumed by the next `gen_step` call. -/
def shuffleOf (m : Maze) : List Direction :=
  m.rng.stream m.rng.idx

/-- Direction `d` passes the bounds check of `gen_step` and leads to an
unvisited cell (so the scan would select it). -/
def dirFree (m : Maze) (d : Direction) : Prop :=
  match d with
  | .bottom => ¬m.cursor.y ≥ m.height - 1 ∧
      ¬(m.get_cell m.cursor.x (m.cursor.y + 1)).visited = true
  | .left => ¬m.cursor.x = 0 ∧
      ¬(m.get_cell (m.cursor.x - 1) m.cursor.y).visited = true
  | .right => ¬m.cursor.x ≥ m.width - 1 ∧
      ¬(m.get_cell (m.cursor.x + 1) m.cursor.y).visited = true
  | .top => ¬m.cursor.y = 0 ∧
      ¬(m.get_cell m.cursor.x (m.cursor.y - 1)).visited = true

instance (m : Maze) (d : Direction) : Decidable (m.dirFree d) := by
  unfold dirFree; cases d <;> infer_instance

/-- The maze after the shuffle of one `gen_step` has consumed its
randomness (state otherwise untouched). -/
def withAdv (m : Maze) : Maze :=
  { m with rng := advRng m.rng }

/-- The state produced by the `Some(dir)` branch of `gen_step`: carve the
wall and move (`applyMove`), mark the new cursor visited, push it. -/
def forwardState (m : Maze) (dir : Direction) : Maze :=
  let m2 := applyMove m dir
  let m3 := m2.set_cell m2.cursor.x m2.cursor.y fun c => { c with visited := true }
  { m3 with tail := m3.cursor :: m3.tail }

/-- Basic well-formedness of a maze state, preserved by `gen_step`. -/
structure Wf (m : Maze) : Prop where
  wpos : 0 < m.width
  hpos : 0 < m.height
  cellsLen : m.cells.length = m.width * m.height
  cursorIn : m.inBounds m.cursor
  tailIn : ∀ p ∈ m.tail, m.inBounds p
  cursorVis : m.visitedAt m.cursor
  tailVis : ∀ p ∈ m.tail, m.visitedAt p
  rootVis : m.visitedAt startPos
  carvedVis : ∀ p q, m.carvedBetween p q → m.visitedAt p ∧ m.visitedAt q

/-- The boundary-wall invariant: the rightmost column's `right` walls and
the bottommost row's `bottom` walls are all present. -/
def BoundaryOK (m : Maze) : Prop :=
  (∀ y, y < m.height → (m.get_cell (m.width - 1) y).right = true) ∧
    (∀ x, x < m.width → (m.get_cell x (m.height - 1)).bottom = true)

/-- The full generator invariant, preserved by `gen_step`. -/
structure Inv (m : Maze) : Prop where
  wf : Wf m
  good : GoodRng m.rng
  tree : TreeInv m
  tailok : TailOK m
  curok : CursorOK m
  inact : InactiveOK m
  reach : ReachInv m


/-- One external call to the engine: a single `step` or a `generate`
with an optional limit (the public mutating operations). -/
inductive Call where
  | stepCall
  | generateCall (limit : Option Nat)

/-- Run a sequence of external calls, keeping the final state. -/
def runCalls (m : Maze) : List Call → Maze
  | [] => m
  | Call.stepCall :: rest => runCalls m.gen_step.1 rest
  | Call.generateCall lim :: rest => runCalls (m.generate lim).1 rest

end Maze

end MazeRs

/-!
Lemma development.  First the cell-store access lemmas, then the
characterisation of one `gen_step`, then the state invariants, and at the
end the theorems for the spec's claims.
-/

namespace MazeRs

namespace Maze

theorem offset_lt (m : Maze) {p : Position} (hp : m.inBounds p) :
    m.get_cell_offset p.x p.y < m.width * m.height := by
  obtain ⟨hx, hy⟩ := hp
  unfold get_cell_offset
  calc p.x + p.y * m.width < m.width + p.y * m.width := by omega
  _ = (p.y + 1) * m.width := by ring
  _ ≤ m.height * m.width := Nat.mul_le_mul_right _ (by omega)
  _ = m.width * m.height := Nat.mul_comm _ _

theorem offset_inj (m : Maze) {p q : Position} (hp : m.inBounds p) (hq : m.inBounds q)
    (h : m.get_cell_offset p.x p.y = m.get_cell_offset q.x q.y) : p = q := by
  unfold get_cell_offset at h
  have hx : p.x = q.x := by
    have h1 : (p.x + p.y * m.width) % m.width = p.x := by
      rw [Nat.add_mul_mod_self_right]
      exact Nat.mod_eq_of_lt hp.1
    have h2 : (q.x + q.y * m.width) % m.width = q.x := by
      rw [Nat.add_mul_mod_self_right]
      exact Nat.mod_eq_of_lt hq.1
    rw [h] at h1
    rw [h1] at h2
    exact h2
  have hy : p.y = q.y := by
    have hw : 0 < m.width := Nat.lt_of_le_of_lt (Nat.zero_le _) hp.1
    rw [hx] at h
    exact Nat.eq_of_mul_eq_mul_right hw (Nat.add_left_cancel h)
  cases p; cases q
  simp_all

theorem get_cell?_isSome (m : Maze) {p : Position} (hlen : m.cells.length = m.width * m.height)
    (hp : m.inBounds p) : m.get_cell? p.x p.y = some (m.get_cell p.x p.y) := by
  unfold get_cell get_cell?
  have : m.get_cell_offset p.x p.y < m.cells.length := by
    rw [hlen]; exact m.offset_lt hp
  rw [List.get?_eq_getElem? , List.getElem?_eq_getElem this]
  rfl

theorem set_cell_width (m : Maze) (x y : Nat) (f : MazeCell → MazeCell) :
    (m.set_cell x y f).width = m.width := rfl

theorem set_cell_height (m : Maze) (x y : Nat) (f : MazeCell → MazeCell) :
    (m.set_cell x y f).height = m.height := rfl

theorem set_cell_cursor (m : Maze) (x y : Nat) (f : MazeCell → MazeCell) :
    (m.set_cell x y f).cursor = m.cursor := rfl

theorem set_cell_tail (m : Maze) (x y : Nat) (f : MazeCell → MazeCell) :
    (m.set_cell x y f).tail = m.tail := rfl

theorem set_cell_rng (m : Maze) (x y : Nat) (f : MazeCell → MazeCell) :
    (m.set_cell x y f).rng = m.rng := rfl

theorem set_cell_cellsLen (m : Maze) (x y : Nat) (f : MazeCell → MazeCell) :
    (m.set_cell x y f).cells.length = m.cells.length := by
  unfold set_cell
  exact List.length_set _ _ _

theorem get_cell_set_cell_self (m : Maze) {p : Position}
    (hlen : m.cells.length = m.width * m.height) (hp : m.inBounds p)
    (f : MazeCell → MazeCell) :
    (m.set_cell p.x p.y f).get_cell p.x p.y = f (m.get_cell p.x p.y) := by
  have hoff : m.get_cell_offset p.x p.y < m.cells.length := by
    rw [hlen]; exact m.offset_lt hp
  simp only [set_cell, get_cell, get_cell?, get_cell_offset, List.get?_eq_getElem?] at *
  rw [List.getElem?_set_self (by simpa using hoff)]
  rw [List.getElem?_eq_getElem hoff]
  rfl

theorem get_cell_set_cell_ne (m : Maze) {p q : Position}
    (hp : m.inBounds p) (hq : m.inBounds q)
    (hne : p ≠ q) (f : MazeCell → MazeCell) :
    (m.set_cell q.x q.y f).get_cell p.x p.y = m.get_cell p.x p.y := by
  have hoffne : m.get_cell_offset q.x q.y ≠ m.get_cell_offset p.x p.y := by
    intro h
    exact hne (m.offset_inj hq hp h).symm
  simp only [set_cell, get_cell, get_cell?, get_cell_offset, List.get?_eq_getElem?] at *
  rw [List.getElem?_set_ne hoffne]

theorem get_cell_withAdv (m : Maze) (x y : Nat) :
    (withAdv m).get_cell x y = m.get_cell x y := rfl

theorem selectDest_withAdv (m : Maze) (l : List Direction) :
    selectDest (withAdv m) l = selectDest m l := by
  induction l with
  | nil => rfl
  | cons d rest ih =>
    cases d <;> simp only [selectDest, withAdv, get_cell, get_cell?, get_cell_offset] <;>
      exact ih ▸ rfl

theorem gen_step_none_nil {m : Maze} (h : selectDest m (shuffleOf m) = none)
    (ht : m.tail = []) : m.gen_step = (withAdv m, true) := by
  cases m with
  | mk w hh cur tl cl rg =>
    simp only at ht
    subst ht
    have h2 : selectDest (⟨w, hh, cur, [], cl, ⟨rg.stream, rg.idx + 1⟩⟩ : Maze)
        (rg.stream rg.idx) = none := by
      rw [show (⟨w, hh, cur, [], cl, ⟨rg.stream, rg.idx + 1⟩⟩ : Maze) =
          withAdv ⟨w, hh, cur, [], cl, rg⟩ from rfl, selectDest_withAdv]
      exact h
    show (match selectDest (⟨w, hh, cur, [], cl, ⟨rg.stream, rg.idx + 1⟩⟩ : Maze)
        (rg.stream rg.idx) with
      | some dir => _
      | none => _) = _
    rw [h2]
    rfl

theorem gen_step_none_cons {m : Maze} {p : Position} {rest : List Position}
    (h : selectDest m (shuffleOf m) = none) (ht : m.tail = p :: rest) :
    m.gen_step = ({ withAdv m with cursor := p, tail := rest }, false) := by
  cases m with
  | mk w hh cur tl cl rg =>
    simp only at ht
    subst ht
    have h2 : selectDest (⟨w, hh, cur, p :: rest, cl, ⟨rg.stream, rg.idx + 1⟩⟩ : Maze)
        (rg.stream rg.idx) = none := by
      rw [show (⟨w, hh, cur, p :: rest, cl, ⟨rg.stream, rg.idx + 1⟩⟩ : Maze) =
          withAdv ⟨w, hh, cur, p :: rest, cl, rg⟩ from rfl, selectDest_withAdv]
      exact h
    show (match selectDest (⟨w, hh, cur, p :: rest, cl, ⟨rg.stream, rg.idx + 1⟩⟩ : Maze)
        (rg.stream rg.idx) with
      | some dir => _
      | none => _) = _
    rw [h2]
    rfl

theorem gen_step_some {m : Maze} {dir : Direction}
    (h : selectDest m (shuffleOf m) = some dir) :
    m.gen_step = (forwardState (withAdv m) dir, false) := by
  cases m with
  | mk w hh cur tl cl rg =>
    have h2 : selectDest (⟨w, hh, cur, tl, cl, ⟨rg.stream, rg.idx + 1⟩⟩ : Maze)
        (rg.stream rg.idx) = some dir := by
      rw [show (⟨w, hh, cur, tl, cl, ⟨rg.stream, rg.idx + 1⟩⟩ : Maze) =
          withAdv ⟨w, hh, cur, tl, cl, rg⟩ from rfl, selectDest_withAdv]
      exact h
    show (match selectDest (⟨w, hh, cur, tl, cl, ⟨rg.stream, rg.idx + 1⟩⟩ : Maze)
        (rg.stream rg.idx) with
      | some dir => _
      | none => _) = _
    rw [h2]
    rfl

theorem selectDest_cons_free {m : Maze} {d : Direction} {rest : List Direction}
    (hfree : m.dirFree d) : selectDest m (d :: rest) = some d := by
  cases d <;> simp only [dirFree] at hfree <;>
    simp only [selectDest] <;>
    rw [if_neg hfree.1, if_neg hfree.2]

theorem selectDest_cons_skip {m : Maze} {d : Direction} {rest : List Direction}
    (hnot : ¬m.dirFree d) : selectDest m (d :: rest) = selectDest m rest := by
  cases d <;> simp only [dirFree, not_and_or, not_not] at hnot <;>
    simp only [selectDest] <;>
    (split_ifs with hA hB
     · rfl
     · rfl
     · rcases hnot with h | h
       · exact absurd h hA
       · exact absurd h hB)

theorem selectDest_none_iff (m : Maze) (l : List Direction) :
    selectDest m l = none ↔ ∀ d ∈ l, ¬m.dirFree d := by
  induction l with
  | nil => simp [selectDest]
  | cons d rest ih =>
    constructor
    · intro h e he
      rcases List.mem_cons.mp he with rfl | he'
      · intro hfree
        rw [selectDest_cons_free hfree] at h
        cases h
      · by_cases hd : m.dirFree d
        · rw [selectDest_cons_free hd] at h
          cases h
        · rw [selectDest_cons_skip hd] at h
          exact (ih.mp h) e he'
    · intro h
      have hd : ¬m.dirFree d := h d (List.mem_cons_self d rest)
      rw [selectDest_cons_skip hd]
      exact ih.mpr fun e he => h e (List.mem_cons_of_mem d he)

theorem selectDest_some_free {m : Maze} {l : List Direction} {d : Direction}
    (h : selectDest m l = some d) : m.dirFree d := by
  induction l with
  | nil => simp [selectDest] at h
  | cons e rest ih =>
    by_cases he : m.dirFree e
    · rw [selectDest_cons_free he] at h
      cases h
      exact he
    · rw [selectDest_cons_skip he] at h
      exact ih h

theorem dirFree_withAdv (m : Maze) (d : Direction) :
    (withAdv m).dirFree d ↔ m.dirFree d := Iff.rfl

theorem dirFree_target {m : Maze} {d : Direction} (hc : m.inBounds m.cursor)
    (hfree : m.dirFree d) :
    m.inBounds (d.apply m.cursor) ∧ ¬m.visitedAt (d.apply m.cursor) := by
  obtain ⟨hx, hy⟩ := hc
  cases d <;>
    simp only [dirFree] at hfree <;>
    simp only [Direction.apply, inBounds, visitedAt] <;>
    exact ⟨⟨by omega, by omega⟩, hfree.2⟩

theorem forwardState_width (m : Maze) (d : Direction) :
    (forwardState m d).width = m.width := by cases d <;> rfl

theorem forwardState_height (m : Maze) (d : Direction) :
    (forwardState m d).height = m.height := by cases d <;> rfl

theorem forwardState_cursor (m : Maze) (d : Direction) :
    (forwardState m d).cursor = d.apply m.cursor := by cases d <;> rfl

theorem forwardState_tail (m : Maze) (d : Direction) :
    (forwardState m d).tail = d.apply m.cursor :: m.tail := by cases d <;> rfl

theorem forwardState_rng (m : Maze) (d : Direction) :
    (forwardState m d).rng = m.rng := by cases d <;> rfl

theorem forwardState_cellsLen (m : Maze) (d : Direction) :
    (forwardState m d).cells.length = m.cells.length := by
  cases d <;>
    simp only [forwardState, applyMove] <;>
    rw [show ∀ mm : Maze, ({ mm with tail := mm.cursor :: mm.tail } : Maze).cells = mm.cells
        from fun _ => rfl] <;>
    rw [set_cell_cellsLen] <;>
    first
      | rfl
      | (rw [show ∀ mm : Maze, ∀ c : Position, ({ mm with cursor := c } : Maze).cells = mm.cells
            from fun _ _ => rfl, set_cell_cellsLen])

theorem get_cell_irrel_tail (m : Maze) (tl : List Position) (x y : Nat) :
    ({ m with tail := tl } : Maze).get_cell x y = m.get_cell x y := rfl

theorem forward_right_cells {m : Maze} (hlen : m.cells.length = m.width * m.height)
    (hc : m.inBounds m.cursor) (hfree : m.dirFree .right) :
    (∀ p : Position, m.inBounds p → p ≠ m.cursor →
      p ≠ ⟨m.cursor.x + 1, m.cursor.y⟩ →
      (forwardState m .right).get_cell p.x p.y = m.get_cell p.x p.y) ∧
    (forwardState m .right).get_cell m.cursor.x m.cursor.y =
      ⟨(m.get_cell m.cursor.x m.cursor.y).visited, false,
        (m.get_cell m.cursor.x m.cursor.y).bottom⟩ ∧
    (forwardState m .right).get_cell (m.cursor.x + 1) m.cursor.y =
      ⟨true, (m.get_cell (m.cursor.x + 1) m.cursor.y).right,
        (m.get_cell (m.cursor.x + 1) m.cursor.y).bottom⟩ := by
  have ht : m.inBounds (⟨m.cursor.x + 1, m.cursor.y⟩ : Position) :=
    (dirFree_target hc hfree).1
  have hct : m.cursor ≠ (⟨m.cursor.x + 1, m.cursor.y⟩ : Position) := by
    intro h
    have := congrArg Position.x h
    simp at this
  set c := m.cursor with hcdef
  set t : Position := ⟨m.cursor.x + 1, m.cursor.y⟩ with htdef
  have hstep : forwardState m .right =
      { (m.set_cell c.x c.y fun cc => { cc with right := false }).set_cell t.x t.y
          (fun cc => { cc with visited := true }) with
        cursor := t, tail := t :: m.tail } := by
    simp only [forwardState, applyMove, Direction.apply]
    rfl
  have hM : ∀ x y, (forwardState m .right).get_cell x y =
      ((m.set_cell c.x c.y fun cc => { cc with right := false }).set_cell t.x t.y
        (fun cc => { cc with visited := true })).get_cell x y := by
    intro x y
    rw [hstep]
    rfl
  set M := m.set_cell c.x c.y fun cc => { cc with right := false } with hMdef
  have hMlen : M.cells.length = M.width * M.height := by
    rw [hMdef, set_cell_cellsLen, set_cell_width, set_cell_height]
    exact hlen
  have hMin : ∀ p : Position, m.inBounds p → M.inBounds p := fun p hp => hp
  have hMget : ∀ p : Position, m.inBounds p → p ≠ c →
      M.get_cell p.x p.y = m.get_cell p.x p.y := by
    intro p hp hne
    exact m.get_cell_set_cell_ne hp hc hne _
  refine ⟨?_, ?_, ?_⟩
  · intro p hp hpc hpt
    rw [hM, M.get_cell_set_cell_ne (hMin p hp) (hMin t ht) hpt _, hMget p hp hpc]
  · rw [hM, M.get_cell_set_cell_ne (hMin c hc) (hMin t ht) hct _, hMdef,
      m.get_cell_set_cell_self hlen hc _]
  · rw [hM]
    rw [M.get_cell_set_cell_self hMlen (hMin t ht) _]
    rw [hMget t ht (Ne.symm hct)]

theorem forward_bottom_cells {m : Maze} (hlen : m.cells.length = m.width * m.height)
    (hc : m.inBounds m.cursor) (hfree : m.dirFree .bottom) :
    (∀ p : Position, m.inBounds p → p ≠ m.cursor →
      p ≠ ⟨m.cursor.x, m.cursor.y + 1⟩ →
      (forwardState m .bottom).get_cell p.x p.y = m.get_cell p.x p.y) ∧
    (forwardState m .bottom).get_cell m.cursor.x m.cursor.y =
      ⟨(m.get_cell m.cursor.x m.cursor.y).visited,
        (m.get_cell m.cursor.x m.cursor.y).right, false⟩ ∧
    (forwardState m .bottom).get_cell m.cursor.x (m.cursor.y + 1) =
      ⟨true, (m.get_cell m.cursor.x (m.cursor.y + 1)).right,
        (m.get_cell m.cursor.x (m.cursor.y + 1)).bottom⟩ := by
  have ht : m.inBounds (⟨m.cursor.x, m.cursor.y + 1⟩ : Position) :=
    (dirFree_target hc hfree).1
  have hct : m.cursor ≠ (⟨m.cursor.x, m.cursor.y + 1⟩ : Position) := by
    intro h
    have := congrArg Position.y h
    simp at this
  set c := m.cursor with hcdef
  set t : Position := ⟨m.cursor.x, m.cursor.y + 1⟩ with htdef
  have hM : ∀ x y, (forwardState m .bottom).get_cell x y =
      ((m.set_cell c.x c.y fun cc => { cc with bottom := false }).set_cell t.x t.y
        (fun cc => { cc with visited := true })).get_cell x y := by
    intro x y
    simp only [forwardState, applyMove, Direction.apply]
    rfl
  set M := m.set_cell c.x c.y fun cc => { cc with bottom := false } with hMdef
  have hMlen : M.cells.length = M.width * M.height := by
    rw [hMdef, set_cell_cellsLen, set_cell_width, set_cell_height]
    exact hlen
  have hMin : ∀ p : Position, m.inBounds p → M.inBounds p := fun p hp => hp
  have hMget : ∀ p : Position, m.inBounds p → p ≠ c →
      M.get_cell p.x p.y = m.get_cell p.x p.y := by
    intro p hp hne
    exact m.get_cell_set_cell_ne hp hc hne _
  refine ⟨?_, ?_, ?_⟩
  · intro p hp hpc hpt
    rw [hM, M.get_cell_set_cell_ne (hMin p hp) (hMin t ht) hpt _, hMget p hp hpc]
  · rw [hM, M.get_cell_set_cell_ne (hMin c hc) (hMin t ht) hct _, hMdef,
      m.get_cell_set_cell_self hlen hc _]
  · rw [hM]
    rw [M.get_cell_set_cell_self hMlen (hMin t ht) _]
    rw [hMget t ht (Ne.symm hct)]

theorem forward_left_cells {m : Maze} (hlen : m.cells.length = m.width * m.height)
    (hc : m.inBounds m.cursor) (hfree : m.dirFree .left) :
    (∀ p : Position, m.inBounds p → p ≠ ⟨m.cursor.x - 1, m.cursor.y⟩ →
      (forwardState m .left).get_cell p.x p.y = m.get_cell p.x p.y) ∧
    (forwardState m .left).get_cell (m.cursor.x - 1) m.cursor.y =
      ⟨true, false, (m.get_cell (m.cursor.x - 1) m.cursor.y).bottom⟩ := by
  have ht : m.inBounds (⟨m.cursor.x - 1, m.cursor.y⟩ : Position) :=
    (dirFree_target hc hfree).1
  set t : Position := ⟨m.cursor.x - 1, m.cursor.y⟩ with htdef
  have hM : ∀ x y, (forwardState m .left).get_cell x y =
      ((m.set_cell t.x t.y fun cc => { cc with right := false }).set_cell t.x t.y
        (fun cc => { cc with visited := true })).get_cell x y := by
    intro x y
    simp only [forwardState, applyMove, Direction.apply]
    rfl
  set M := m.set_cell t.x t.y fun cc => { cc with right := false } with hMdef
  have hMlen : M.cells.length = M.width * M.height := by
    rw [hMdef, set_cell_cellsLen, set_cell_width, set_cell_height]
    exact hlen
  have hMin : ∀ p : Position, m.inBounds p → M.inBounds p := fun p hp => hp
  refine ⟨?_, ?_⟩
  · intro p hp hpt
    rw [hM, M.get_cell_set_cell_ne (hMin p hp) (hMin t ht) hpt _, hMdef,
      m.get_cell_set_cell_ne hp ht hpt _]
  · rw [hM, M.get_cell_set_cell_self hMlen (hMin t ht) _, hMdef,
      m.get_cell_set_cell_self hlen ht _]

theorem forward_top_cells {m : Maze} (hlen : m.cells.length = m.width * m.height)
    (hc : m.inBounds m.cursor) (hfree : m.dirFree .top) :
    (∀ p : Position, m.inBounds p → p ≠ ⟨m.cursor.x, m.cursor.y - 1⟩ →
      (forwardState m .top).get_cell p.x p.y = m.get_cell p.x p.y) ∧
    (forwardState m .top).get_cell m.cursor.x (m.cursor.y - 1) =
      ⟨true, (m.get_cell m.cursor.x (m.cursor.y - 1)).right, false⟩ := by
  have ht : m.inBounds (⟨m.cursor.x, m.cursor.y - 1⟩ : Position) :=
    (dirFree_target hc hfree).1
  set t : Position := ⟨m.cursor.x, m.cursor.y - 1⟩ with htdef
  have hM : ∀ x y, (forwardState m .top).get_cell x y =
      ((m.set_cell t.x t.y fun cc => { cc with bottom := false }).set_cell t.x t.y
        (fun cc => { cc with visited := true })).get_cell x y := by
    intro x y
    simp only [forwardState, applyMove, Direction.apply]
    rfl
  set M := m.set_cell t.x t.y fun cc => { cc with bottom := false } with hMdef
  have hMlen : M.cells.length = M.width * M.height := by
    rw [hMdef, set_cell_cellsLen, set_cell_width, set_cell_height]
    exact hlen
  have hMin : ∀ p : Position, m.inBounds p → M.inBounds p := fun p hp => hp
  refine ⟨?_, ?_⟩
  · intro p hp hpt
    rw [hM, M.get_cell_set_cell_ne (hMin p hp) (hMin t ht) hpt _, hMdef,
      m.get_cell_set_cell_ne hp ht hpt _]
  · rw [hM, M.get_cell_set_cell_self hMlen (hMin t ht) _, hMdef,
      m.get_cell_set_cell_self hlen ht _]

theorem gen_step_width (m : Maze) : (m.gen_step.1).width = m.width := by
  cases hsel : selectDest m (shuffleOf m) with
  | some dir =>
    rw [gen_step_some hsel]
    exact forwardState_width _ _
  | none =>
    cases htl : m.tail with
    | nil =>
      rw [gen_step_none_nil hsel htl]
      rfl
    | cons p rest =>
      rw [gen_step_none_cons hsel htl]
      rfl

theorem gen_step_height (m : Maze) : (m.gen_step.1).height = m.height := by
  cases hsel : selectDest m (shuffleOf m) with
  | some dir =>
    rw [gen_step_some hsel]
    exact forwardState_height _ _
  | none =>
    cases htl : m.tail with
    | nil =>
      rw [gen_step_none_nil hsel htl]
      rfl
    | cons p rest =>
      rw [gen_step_none_cons hsel htl]
      rfl

theorem gen_step_stream (m : Maze) : (m.gen_step.1).rng.stream = m.rng.stream := by
  cases hsel : selectDest m (shuffleOf m) with
  | some dir =>
    rw [gen_step_some hsel]
    rw [forwardState_rng]
    rfl
  | none =>
    cases htl : m.tail with
    | nil =>
      rw [gen_step_none_nil hsel htl]
      rfl
    | cons p rest =>
      rw [gen_step_none_cons hsel htl]
      rfl

theorem gen_step_cellsLen (m : Maze) :
    (m.gen_step.1).cells.length = m.cells.length := by
  cases hsel : selectDest m (shuffleOf m) with
  | some dir =>
    rw [gen_step_some hsel]
    show (forwardState (withAdv m) dir).cells.length = m.cells.length
    rw [forwardState_cellsLen]
    rfl
  | none =>
    cases htl : m.tail with
    | nil =>
      rw [gen_step_none_nil hsel htl]
      rfl
    | cons p rest =>
      rw [gen_step_none_cons hsel htl]
      rfl

theorem forward_visited_target {m : Maze} {d : Direction}
    (hlen : m.cells.length = m.width * m.height) (hc : m.inBounds m.cursor)
    (hfree : m.dirFree d) :
    ((forwardState m d).get_cell (d.apply m.cursor).x (d.apply m.cursor).y).visited = true := by
  cases d
  · exact congrArg MazeCell.visited (forward_top_cells hlen hc hfree).2
  · exact congrArg MazeCell.visited (forward_right_cells hlen hc hfree).2.2
  · exact congrArg MazeCell.visited (forward_left_cells hlen hc hfree).2
  · exact congrArg MazeCell.visited (forward_bottom_cells hlen hc hfree).2.2

theorem forward_visited_mono {m : Maze} {d : Direction}
    (hlen : m.cells.length = m.width * m.height) (hc : m.inBounds m.cursor)
    (hfree : m.dirFree d) {p : Position} (hp : m.inBounds p)
    (hv : (m.get_cell p.x p.y).visited = true) :
    ((forwardState m d).get_cell p.x p.y).visited = true := by
  cases d
  case top =>
    by_cases hpt : p = ⟨m.cursor.x, m.cursor.y - 1⟩
    · rw [hpt]
      exact congrArg MazeCell.visited (forward_top_cells hlen hc hfree).2
    · rw [(forward_top_cells hlen hc hfree).1 p hp hpt]
      exact hv
  case right =>
    by_cases hpt : p = ⟨m.cursor.x + 1, m.cursor.y⟩
    · rw [hpt]
      exact congrArg MazeCell.visited (forward_right_cells hlen hc hfree).2.2
    · by_cases hpc : p = m.cursor
      · rw [hpc]
        rw [(forward_right_cells hlen hc hfree).2.1]
        rw [hpc] at hv
        exact hv
      · rw [(forward_right_cells hlen hc hfree).1 p hp hpc hpt]
        exact hv
  case left =>
    by_cases hpt : p = ⟨m.cursor.x - 1, m.cursor.y⟩
    · rw [hpt]
      exact congrArg MazeCell.visited (forward_left_cells hlen hc hfree).2
    · rw [(forward_left_cells hlen hc hfree).1 p hp hpt]
      exact hv
  case bottom =>
    by_cases hpt : p = ⟨m.cursor.x, m.cursor.y + 1⟩
    · rw [hpt]
      exact congrArg MazeCell.visited (forward_bottom_cells hlen hc hfree).2.2
    · by_cases hpc : p = m.cursor
      · rw [hpc]
        rw [(forward_bottom_cells hlen hc hfree).2.1]
        rw [hpc] at hv
        exact hv
      · rw [(forward_bottom_cells hlen hc hfree).1 p hp hpc hpt]
        exact hv

theorem forward_visited_inv {m : Maze} {d : Direction}
    (hlen : m.cells.length = m.width * m.height) (hc : m.inBounds m.cursor)
    (hfree : m.dirFree d) {p : Position} (hp : m.inBounds p)
    (hv : ((forwardState m d).get_cell p.x p.y).visited = true) :
    (m.get_cell p.x p.y).visited = true ∨ p = d.apply m.cursor := by
  cases d
  case top =>
    by_cases hpt : p = ⟨m.cursor.x, m.cursor.y - 1⟩
    · exact Or.inr hpt
    · rw [(forward_top_cells hlen hc hfree).1 p hp hpt] at hv
      exact Or.inl hv
  case right =>
    by_cases hpt : p = ⟨m.cursor.x + 1, m.cursor.y⟩
    · exact Or.inr hpt
    · by_cases hpc : p = m.cursor
      · subst hpc
        rw [(forward_right_cells hlen hc hfree).2.1] at hv
        exact Or.inl hv
      · rw [(forward_right_cells hlen hc hfree).1 p hp hpc hpt] at hv
        exact Or.inl hv
  case left =>
    by_cases hpt : p = ⟨m.cursor.x - 1, m.cursor.y⟩
    · exact Or.inr hpt
    · rw [(forward_left_cells hlen hc hfree).1 p hp hpt] at hv
      exact Or.inl hv
  case bottom =>
    by_cases hpt : p = ⟨m.cursor.x, m.cursor.y + 1⟩
    · exact Or.inr hpt
    · by_cases hpc : p = m.cursor
      · subst hpc
        rw [(forward_bottom_cells hlen hc hfree).2.1] at hv
        exact Or.inl hv
      · rw [(forward_bottom_cells hlen hc hfree).1 p hp hpc hpt] at hv
        exact Or.inl hv

theorem forward_right_flag_mono {m : Maze} {d : Direction}
    (hlen : m.cells.length = m.width * m.height) (hc : m.inBounds m.cursor)
    (hfree : m.dirFree d) {p : Position} (hp : m.inBounds p)
    (hv : (m.get_cell p.x p.y).right = false) :
    ((forwardState m d).get_cell p.x p.y).right = false := by
  cases d
  case top =>
    by_cases hpt : p = ⟨m.cursor.x, m.cursor.y - 1⟩
    · subst hpt
      rw [(forward_top_cells hlen hc hfree).2]
      rw [(show ∀ cc : MazeCell, (⟨true, cc.right, false⟩ : MazeCell).right = cc.right
        from fun _ => rfl)]
      exact hv
    · rw [(forward_top_cells hlen hc hfree).1 p hp hpt]
      exact hv
  case right =>
    by_cases hpt : p = ⟨m.cursor.x + 1, m.cursor.y⟩
    · subst hpt
      rw [(forward_right_cells hlen hc hfree).2.2]
      exact hv
    · by_cases hpc : p = m.cursor
      · subst hpc
        rw [(forward_right_cells hlen hc hfree).2.1]
      · rw [(forward_right_cells hlen hc hfree).1 p hp hpc hpt]
        exact hv
  case left =>
    by_cases hpt : p = ⟨m.cursor.x - 1, m.cursor.y⟩
    · subst hpt
      rw [(forward_left_cells hlen hc hfree).2]
    · rw [(forward_left_cells hlen hc hfree).1 p hp hpt]
      exact hv
  case bottom =>
    by_cases hpt : p = ⟨m.cursor.x, m.cursor.y + 1⟩
    · subst hpt
      rw [(forward_bottom_cells hlen hc hfree).2.2]
      exact hv
    · by_cases hpc : p = m.cursor
      · subst hpc
        rw [(forward_bottom_cells hlen hc hfree).2.1]
        exact hv
      · rw [(forward_bottom_cells hlen hc hfree).1 p hp hpc hpt]
        exact hv

theorem forward_bottom_flag_mono {m : Maze} {d : Direction}
    (hlen : m.cells.length = m.width * m.height) (hc : m.inBounds m.cursor)
    (hfree : m.dirFree d) {p : Position} (hp : m.inBounds p)
    (hv : (m.get_cell p.x p.y).bottom = false) :
    ((forwardState m d).get_cell p.x p.y).bottom = false := by
  cases d
  case top =>
    by_cases hpt : p = ⟨m.cursor.x, m.cursor.y - 1⟩
    · subst hpt
      rw [(forward_top_cells hlen hc hfree).2]
    · rw [(forward_top_cells hlen hc hfree).1 p hp hpt]
      exact hv
  case right =>
    by_cases hpt : p = ⟨m.cursor.x + 1, m.cursor.y⟩
    · subst hpt
      rw [(forward_right_cells hlen hc hfree).2.2]
      exact hv
    · by_cases hpc : p = m.cursor
      · subst hpc
        rw [(forward_right_cells hlen hc hfree).2.1]
        exact hv
      · rw [(forward_right_cells hlen hc hfree).1 p hp hpc hpt]
        exact hv
  case left =>
    by_cases hpt : p = ⟨m.cursor.x - 1, m.cursor.y⟩
    · subst hpt
      rw [(forward_left_cells hlen hc hfree).2]
      rw [(show ∀ cc : MazeCell, (⟨true, false, cc.bottom⟩ : MazeCell).bottom = cc.bottom
        from fun _ => rfl)]
      exact hv
    · rw [(forward_left_cells hlen hc hfree).1 p hp hpt]
      exact hv
  case bottom =>
    by_cases hpt : p = ⟨m.cursor.x, m.cursor.y + 1⟩
    · subst hpt
      rw [(forward_bottom_cells hlen hc hfree).2.2]
      exact hv
    · by_cases hpc : p = m.cursor
      · subst hpc
        rw [(forward_bottom_cells hlen hc hfree).2.1]
      · rw [(forward_bottom_cells hlen hc hfree).1 p hp hpc hpt]
        exact hv

theorem forward_right_flag_inv {m : Maze} {d : Direction}
    (hlen : m.cells.length = m.width * m.height) (hc : m.inBounds m.cursor)
    (hfree : m.dirFree d) {p : Position} (hp : m.inBounds p)
    (hv : ((forwardState m d).get_cell p.x p.y).right = false) :
    (m.get_cell p.x p.y).right = false ∨
      (d = .right ∧ p = m.cursor) ∨ (d = .left ∧ p = d.apply m.cursor) := by
  cases d
  case top =>
    by_cases hpt : p = ⟨m.cursor.x, m.cursor.y - 1⟩
    · subst hpt
      rw [(forward_top_cells hlen hc hfree).2] at hv
      exact Or.inl hv
    · rw [(forward_top_cells hlen hc hfree).1 p hp hpt] at hv
      exact Or.inl hv
  case right =>
    by_cases hpc : p = m.cursor
    · exact Or.inr (Or.inl ⟨rfl, hpc⟩)
    · by_cases hpt : p = ⟨m.cursor.x + 1, m.cursor.y⟩
      · subst hpt
        rw [(forward_right_cells hlen hc hfree).2.2] at hv
        exact Or.inl hv
      · rw [(forward_right_cells hlen hc hfree).1 p hp hpc hpt] at hv
        exact Or.inl hv
  case left =>
    by_cases hpt : p = ⟨m.cursor.x - 1, m.cursor.y⟩
    · exact Or.inr (Or.inr ⟨rfl, hpt⟩)
    · rw [(forward_left_cells hlen hc hfree).1 p hp hpt] at hv
      exact Or.inl hv
  case bottom =>
    by_cases hpt : p = ⟨m.cursor.x, m.cursor.y + 1⟩
    · subst hpt
      rw [(forward_bottom_cells hlen hc hfree).2.2] at hv
      exact Or.inl hv
    · by_cases hpc : p = m.cursor
      · subst hpc
        rw [(forward_bottom_cells hlen hc hfree).2.1] at hv
        exact Or.inl hv
      · rw [(forward_bottom_cells hlen hc hfree).1 p hp hpc hpt] at hv
        exact Or.inl hv

theorem forward_bottom_flag_inv {m : Maze} {d : Direction}
    (hlen : m.cells.length = m.width * m.height) (hc : m.inBounds m.cursor)
    (hfree : m.dirFree d) {p : Position} (hp : m.inBounds p)
    (hv : ((forwardState m d).get_cell p.x p.y).bottom = false) :
    (m.get_cell p.x p.y).bottom = false ∨
      (d = .bottom ∧ p = m.cursor) ∨ (d = .top ∧ p = d.apply m.cursor) := by
  cases d
  case top =>
    by_cases hpt : p = ⟨m.cursor.x, m.cursor.y - 1⟩
    · exact Or.inr (Or.inr ⟨rfl, hpt⟩)
    · rw [(forward_top_cells hlen hc hfree).1 p hp hpt] at hv
      exact Or.inl hv
  case right =>
    by_cases hpt : p = ⟨m.cursor.x + 1, m.cursor.y⟩
    · subst hpt
      rw [(forward_right_cells hlen hc hfree).2.2] at hv
      exact Or.inl hv
    · by_cases hpc : p = m.cursor
      · subst hpc
        rw [(forward_right_cells hlen hc hfree).2.1] at hv
        exact Or.inl hv
      · rw [(forward_right_cells hlen hc hfree).1 p hp hpc hpt] at hv
        exact Or.inl hv
  case left =>
    by_cases hpt : p = ⟨m.cursor.x - 1, m.cursor.y⟩
    · subst hpt
      rw [(forward_left_cells hlen hc hfree).2] at hv
      rw [(show ∀ cc : MazeCell, (⟨true, false, cc.bottom⟩ : MazeCell).bottom = cc.bottom
        from fun _ => rfl)] at hv
      exact Or.inl hv
    · rw [(forward_left_cells hlen hc hfree).1 p hp hpt] at hv
      exact Or.inl hv
  case bottom =>
    by_cases hpc : p = m.cursor
    · exact Or.inr (Or.inl ⟨rfl, hpc⟩)
    · by_cases hpt : p = ⟨m.cursor.x, m.cursor.y + 1⟩
      · subst hpt
        rw [(forward_bottom_cells hlen hc hfree).2.2] at hv
        exact Or.inl hv
      · rw [(forward_bottom_cells hlen hc hfree).1 p hp hpc hpt] at hv
        exact Or.inl hv

theorem inBounds_forward (m : Maze) (d : Direction) (p : Position) :
    (forwardState m d).inBounds p ↔ m.inBounds p := by
  cases d <;> exact Iff.rfl

theorem carved_mono {m : Maze} {d : Direction}
    (hlen : m.cells.length = m.width * m.height) (hc : m.inBounds m.cursor)
    (hfree : m.dirFree d) {p q : Position} (hv : m.carvedBetween p q) :
    (forwardState m d).carvedBetween p q := by
  obtain ⟨hp, hq, hcase⟩ := hv
  refine ⟨(inBounds_forward m d p).mpr hp, (inBounds_forward m d q).mpr hq, ?_⟩
  rcases hcase with ⟨h1, h2, h3⟩ | ⟨h1, h2, h3⟩ | ⟨h1, h2, h3⟩ | ⟨h1, h2, h3⟩
  · exact Or.inl ⟨h1, h2, forward_right_flag_mono hlen hc hfree hp h3⟩
  · exact Or.inr (Or.inl ⟨h1, h2, forward_right_flag_mono hlen hc hfree hq h3⟩)
  · exact Or.inr (Or.inr (Or.inl ⟨h1, h2, forward_bottom_flag_mono hlen hc hfree hp h3⟩))
  · exact Or.inr (Or.inr (Or.inr ⟨h1, h2, forward_bottom_flag_mono hlen hc hfree hq h3⟩))

theorem carved_new {m : Maze} {d : Direction}
    (hlen : m.cells.length = m.width * m.height) (hc : m.inBounds m.cursor)
    (hfree : m.dirFree d) :
    (forwardState m d).carvedBetween m.cursor (d.apply m.cursor) := by
  have ht := (dirFree_target hc hfree).1
  refine ⟨(inBounds_forward m d _).mpr hc, (inBounds_forward m d _).mpr ht, ?_⟩
  cases d
  case top =>
    have hy : m.cursor.y ≠ 0 := hfree.1
    refine Or.inr (Or.inr (Or.inr ⟨rfl, ?_, ?_⟩))
    · show m.cursor.y - 1 + 1 = m.cursor.y
      omega
    · exact congrArg MazeCell.bottom (forward_top_cells hlen hc hfree).2
  case right =>
    refine Or.inl ⟨rfl, rfl, ?_⟩
    exact congrArg MazeCell.right (forward_right_cells hlen hc hfree).2.1
  case left =>
    have hx : m.cursor.x ≠ 0 := hfree.1
    refine Or.inr (Or.inl ⟨?_, ?_, ?_⟩)
    · show m.cursor.x - 1 + 1 = m.cursor.x
      omega
    · rfl
    · exact congrArg MazeCell.right (forward_left_cells hlen hc hfree).2
  case bottom =>
    refine Or.inr (Or.inr (Or.inl ⟨rfl, rfl, ?_⟩))
    exact congrArg MazeCell.bottom (forward_bottom_cells hlen hc hfree).2.1

theorem carved_inv {m : Maze} {d : Direction}
    (hlen : m.cells.length = m.width * m.height) (hc : m.inBounds m.cursor)
    (hfree : m.dirFree d) {p q : Position}
    (hv : (forwardState m d).carvedBetween p q) :
    m.carvedBetween p q ∨
      (p = m.cursor ∧ q = d.apply m.cursor) ∨ (p = d.apply m.cursor ∧ q = m.cursor) := by
  obtain ⟨hp, hq, hcase⟩ := hv
  rw [inBounds_forward] at hp hq
  have hfx : ∀ x y : Nat, (⟨x, y⟩ : Position).x = x := fun _ _ => rfl
  rcases hcase with ⟨h1, h2, h3⟩ | ⟨h1, h2, h3⟩ | ⟨h1, h2, h3⟩ | ⟨h1, h2, h3⟩
  · rcases forward_right_flag_inv hlen hc hfree hp h3 with ho | ⟨hd, hpc⟩ | ⟨hd, hpt⟩
    · exact Or.inl ⟨hp, hq, Or.inl ⟨h1, h2, ho⟩⟩
    · subst hd
      subst hpc
      refine Or.inr (Or.inl ⟨rfl, ?_⟩)
      cases q
      simp only [Direction.apply] at h1 h2 ⊢
      simp_all
    · subst hd
      subst hpt
      refine Or.inr (Or.inr ⟨rfl, ?_⟩)
      have hx0 : m.cursor.x ≠ 0 := hfree.1
      cases hq2 : q
      simp only [Direction.apply] at h1 h2 ⊢
      subst hq2
      cases hcur : m.cursor
      simp_all
      omega
  · rcases forward_right_flag_inv hlen hc hfree hq h3 with ho | ⟨hd, hpc⟩ | ⟨hd, hpt⟩
    · exact Or.inl ⟨hp, hq, Or.inr (Or.inl ⟨h1, h2, ho⟩)⟩
    · subst hd
      subst hpc
      refine Or.inr (Or.inr ⟨?_, rfl⟩)
      cases p
      simp only [Direction.apply] at h1 h2 ⊢
      simp_all
    · subst hd
      subst hpt
      refine Or.inr (Or.inl ⟨?_, rfl⟩)
      have hx0 : m.cursor.x ≠ 0 := hfree.1
      cases hp2 : p
      simp only [Direction.apply] at h1 h2 ⊢
      subst hp2
      cases hcur : m.cursor
      simp_all
      omega
  · rcases forward_bottom_flag_inv hlen hc hfree hp h3 with ho | ⟨hd, hpc⟩ | ⟨hd, hpt⟩
    · exact Or.inl ⟨hp, hq, Or.inr (Or.inr (Or.inl ⟨h1, h2, ho⟩))⟩
    · subst hd
      subst hpc
      refine Or.inr (Or.inl ⟨rfl, ?_⟩)
      cases q
      simp only [Direction.apply] at h1 h2 ⊢
      simp_all
    · subst hd
      subst hpt
      refine Or.inr (Or.inr ⟨rfl, ?_⟩)
      have hy0 : m.cursor.y ≠ 0 := hfree.1
      cases hq2 : q
      simp only [Direction.apply] at h1 h2 ⊢
      subst hq2
      cases hcur : m.cursor
      simp_all
      omega
  · rcases forward_bottom_flag_inv hlen hc hfree hq h3 with ho | ⟨hd, hpc⟩ | ⟨hd, hpt⟩
    · exact Or.inl ⟨hp, hq, Or.inr (Or.inr (Or.inr ⟨h1, h2, ho⟩))⟩
    · subst hd
      subst hpc
      refine Or.inr (Or.inr ⟨?_, rfl⟩)
      cases p
      simp only [Direction.apply] at h1 h2 ⊢
      simp_all
    · subst hd
      subst hpt
      refine Or.inr (Or.inl ⟨?_, rfl⟩)
      have hy0 : m.cursor.y ≠ 0 := hfree.1
      cases hp2 : p
      simp only [Direction.apply] at h1 h2 ⊢
      subst hp2
      cases hcur : m.cursor
      simp_all
      omega

theorem mkMaze_some {w h : Nat} {rng : Rng} {m0 : Maze}
    (hm : mkMaze w h rng = some m0) :
    m0.width = w ∧ m0.height = h ∧ m0.cursor = startPos ∧ m0.tail = [startPos] ∧
      m0.rng = rng ∧ 0 < w ∧ 0 < h ∧ m0.cells.length = w * h := by
  unfold mkMaze at hm
  split_ifs at hm with hwh
  cases hm
  refine ⟨rfl, rfl, rfl, rfl, rfl, ?_, ?_, ?_⟩
  · exact Nat.pos_of_ne_zero fun h0 => hwh (by rw [h0, Nat.zero_mul])
  · exact Nat.pos_of_ne_zero fun h0 => hwh (by rw [h0, Nat.mul_zero])
  · rw [List.length_set, List.length_replicate]

theorem mkMaze_get_cell {w h : Nat} {rng : Rng} {m0 : Maze}
    (hm : mkMaze w h rng = some m0) {p : Position} (hp : m0.inBounds p) :
    m0.get_cell p.x p.y =
      if p = startPos then ⟨true, true, true⟩ else ⟨false, true, true⟩ := by
  obtain ⟨hw, hh, -, -, -, hwpos, hhpos, hlen⟩ := mkMaze_some hm
  have hoff : m0.get_cell_offset p.x p.y < w * h := by
    have := m0.offset_lt hp
    rw [hw, hh] at this
    exact this
  have hcells : m0.cells = (List.replicate (w * h)
      (⟨false, true, true⟩ : MazeCell)).set 0 ⟨true, true, true⟩ := by
    unfold mkMaze at hm
    split_ifs at hm
    cases hm
    rfl
  have hwpos' : 0 < m0.width := by rw [hw]; exact hwpos
  by_cases hps : p = startPos
  · subst hps
    have h00 : m0.get_cell_offset 0 0 = 0 := by
      unfold get_cell_offset
      omega
    rw [if_pos rfl]
    unfold get_cell get_cell?
    rw [show (startPos : Position).x = 0 from rfl, show (startPos : Position).y = 0 from rfl,
      h00, hcells, List.get?_eq_getElem?]
    rw [List.getElem?_set_self (by simp; omega)]
    rfl
  · rw [if_neg hps]
    have hoffne : m0.get_cell_offset p.x p.y ≠ 0 := by
      intro h0
      apply hps
      have h00 : m0.get_cell_offset 0 0 = 0 := by
        unfold get_cell_offset
        omega
      refine m0.offset_inj hp ⟨hwpos', by rw [hh]; exact hhpos⟩ ?_
      rw [h0]
      exact h00.symm
    unfold get_cell get_cell?
    rw [hcells, List.get?_eq_getElem?]
    rw [List.getElem?_set_ne (Ne.symm hoffne)]
    rw [List.getElem?_replicate_of_lt hoff]
    rfl

theorem wf_mkMaze {w h : Nat} {rng : Rng} {m0 : Maze}
    (hm : mkMaze w h rng = some m0) : Wf m0 := by
  obtain ⟨hw, hh, hcur, htl, -, hwpos, hhpos, hlen⟩ := mkMaze_some hm
  have hin0 : m0.inBounds startPos := by
    constructor
    · rw [hw]; exact hwpos
    · rw [hh]; exact hhpos
  have hvis0 : m0.visitedAt startPos := by
    unfold visitedAt
    rw [mkMaze_get_cell hm hin0, if_pos rfl]
  refine ⟨by rw [hw]; exact hwpos, by rw [hh]; exact hhpos, by rw [hlen, hw, hh], ?_, ?_, ?_, ?_, hvis0, ?_⟩
  · rw [hcur]; exact hin0
  · intro p hp
    rw [htl, List.mem_singleton] at hp
    subst hp
    exact hin0
  · rw [hcur]; exact hvis0
  · intro p hp
    rw [htl, List.mem_singleton] at hp
    subst hp
    exact hvis0
  · intro p q hpq
    obtain ⟨hp, hq, hcase⟩ := hpq
    exfalso
    rcases hcase with ⟨-, -, h3⟩ | ⟨-, -, h3⟩ | ⟨-, -, h3⟩ | ⟨-, -, h3⟩ <;>
      rw [mkMaze_get_cell hm (by assumption)] at h3 <;>
      split_ifs at h3 <;>
      cases h3

theorem wf_withAdv {m : Maze} (hw : Wf m) : Wf (withAdv m) :=
  ⟨hw.wpos, hw.hpos, hw.cellsLen, hw.cursorIn, hw.tailIn, hw.cursorVis, hw.tailVis,
    hw.rootVis, hw.carvedVis⟩

theorem wf_forward {m : Maze} (hw : Wf m) {d : Direction} (hfree : m.dirFree d) :
    Wf (forwardState m d) := by
  have hlen := hw.cellsLen
  have hc := hw.cursorIn
  have ht := dirFree_target hc hfree
  refine ⟨?_, ?_, ?_, ?_, ?_, ?_, ?_, ?_, ?_⟩
  · rw [forwardState_width]; exact hw.wpos
  · rw [forwardState_height]; exact hw.hpos
  · rw [forwardState_cellsLen, forwardState_width, forwardState_height]; exact hlen
  · rw [show (forwardState m d).cursor = d.apply m.cursor from forwardState_cursor m d]
    exact (inBounds_forward m d _).mpr ht.1
  · intro p hp
    rw [forwardState_tail] at hp
    rcases List.mem_cons.mp hp with rfl | hp'
    · exact (inBounds_forward m d _).mpr ht.1
    · exact (inBounds_forward m d _).mpr (hw.tailIn p hp')
  · show ((forwardState m d).get_cell _ _).visited = true
    rw [forwardState_cursor]
    exact forward_visited_target hlen hc hfree
  · intro p hp
    rw [forwardState_tail] at hp
    rcases List.mem_cons.mp hp with rfl | hp'
    · exact forward_visited_target hlen hc hfree
    · exact forward_visited_mono hlen hc hfree (hw.tailIn p hp') (hw.tailVis p hp')
  · have hin0 : m.inBounds startPos := ⟨hw.wpos, hw.hpos⟩
    exact forward_visited_mono hlen hc hfree hin0 hw.rootVis
  · intro p q hpq
    rcases carved_inv hlen hc hfree hpq with hold | ⟨rfl, rfl⟩ | ⟨rfl, rfl⟩
    · have hvv := hw.carvedVis p q hold
      have hbp := hold.1
      have hbq := hold.2.1
      exact ⟨forward_visited_mono hlen hc hfree hbp hvv.1,
        forward_visited_mono hlen hc hfree hbq hvv.2⟩
    · exact ⟨forward_visited_mono hlen hc hfree hc hw.cursorVis,
        forward_visited_target hlen hc hfree⟩
    · exact ⟨forward_visited_target hlen hc hfree,
        forward_visited_mono hlen hc hfree hc hw.cursorVis⟩

theorem wf_step {m : Maze} (hw : Wf m) : Wf m.gen_step.1 := by
  cases hsel : selectDest m (shuffleOf m) with
  | some dir =>
    rw [gen_step_some hsel]
    exact wf_forward (wf_withAdv hw) ((dirFree_withAdv m dir).mpr (selectDest_some_free hsel))
  | none =>
    cases htl : m.tail with
    | nil =>
      rw [gen_step_none_nil hsel htl]
      exact wf_withAdv hw
    | cons p rest =>
      rw [gen_step_none_cons hsel htl]
      have hmem : p ∈ m.tail := by rw [htl]; exact List.mem_cons_self p rest
      have hsub : ∀ q ∈ rest, q ∈ m.tail := by
        intro q hq
        rw [htl]
        exact List.mem_cons_of_mem p hq
      exact ⟨hw.wpos, hw.hpos, hw.cellsLen, hw.tailIn p hmem,
        fun q hq => hw.tailIn q (hsub q hq), hw.tailVis p hmem,
        fun q hq => hw.tailVis q (hsub q hq), hw.rootVis, hw.carvedVis⟩

theorem wf_stepIter {m : Maze} (hw : Wf m) (n : Nat) : Wf (stepIter m n) := by
  induction n with
  | zero => exact hw
  | succ k ih => exact wf_step ih

theorem generateN_succ (m : Maze) (n : Nat) :
    generateN m (n + 1) =
      if m.gen_step.2 then (m.gen_step.1, true) else generateN m.gen_step.1 n := by
  rcases h : m.gen_step with ⟨m2, d⟩
  simp [generateN, h]

theorem boundaryOK_forward {m : Maze} (hw : Wf m) {d : Direction}
    (hfree : m.dirFree d) (hb : BoundaryOK m) : BoundaryOK (forwardState m d) := by
  have hlen := hw.cellsLen
  have hc := hw.cursorIn
  constructor
  · intro y hy
    rw [forwardState_height] at hy
    rw [show (forwardState m d).width = m.width from forwardState_width m d]
    by_contra hne
    have hfalse : ((forwardState m d).get_cell (m.width - 1) y).right = false := by
      cases hval : ((forwardState m d).get_cell (m.width - 1) y).right
      · rfl
      · exact absurd hval hne
    have hp : m.inBounds ⟨m.width - 1, y⟩ :=
      ⟨by show m.width - 1 < m.width; have := hw.wpos; omega, hy⟩
    rcases forward_right_flag_inv hlen hc hfree hp hfalse with ho | ⟨hd, hpc⟩ | ⟨hd, hpt⟩
    · rw [hb.1 y hy] at ho
      cases ho
    · subst hd
      have hx := hfree.1
      have := congrArg Position.x hpc
      simp only at this
      have hcx : m.cursor.x < m.width := hc.1
      omega
    · subst hd
      have hx0 : m.cursor.x ≠ 0 := hfree.1
      have := congrArg Position.x hpt
      simp only [Direction.apply] at this
      have hcx : m.cursor.x < m.width := hc.1
      omega
  · intro x hx
    rw [forwardState_width] at hx
    rw [show (forwardState m d).height = m.height from forwardState_height m d]
    by_contra hne
    have hfalse : ((forwardState m d).get_cell x (m.height - 1)).bottom = false := by
      cases hval : ((forwardState m d).get_cell x (m.height - 1)).bottom
      · rfl
      · exact absurd hval hne
    have hp : m.inBounds ⟨x, m.height - 1⟩ :=
      ⟨hx, by show m.height - 1 < m.height; have := hw.hpos; omega⟩
    rcases forward_bottom_flag_inv hlen hc hfree hp hfalse with ho | ⟨hd, hpc⟩ | ⟨hd, hpt⟩
    · rw [hb.2 x hx] at ho
      cases ho
    · subst hd
      have hy := hfree.1
      have := congrArg Position.y hpc
      simp only at this
      have hcy : m.cursor.y < m.height := hc.2
      omega
    · subst hd
      have hy0 : m.cursor.y ≠ 0 := hfree.1
      have := congrArg Position.y hpt
      simp only [Direction.apply] at this
      have hcy : m.cursor.y < m.height := hc.2
      omega

theorem boundaryOK_step {m : Maze} (hw : Wf m) (hb : BoundaryOK m) :
    BoundaryOK m.gen_step.1 := by
  cases hsel : selectDest m (shuffleOf m) with
  | some dir =>
    rw [gen_step_some hsel]
    exact boundaryOK_forward (wf_withAdv hw)
      ((dirFree_withAdv m dir).mpr (selectDest_some_free hsel)) hb
  | none =>
    cases htl : m.tail with
    | nil =>
      rw [gen_step_none_nil hsel htl]
      exact hb
    | cons p rest =>
      rw [gen_step_none_cons hsel htl]
      exact hb

theorem boundaryOK_mkMaze {w h : Nat} {rng : Rng} {m0 : Maze}
    (hm : mkMaze w h rng = some m0) : BoundaryOK m0 := by
  obtain ⟨hw, hh, -, -, -, hwpos, hhpos, -⟩ := mkMaze_some hm
  constructor
  · intro y hy
    have hp : m0.inBounds ⟨m0.width - 1, y⟩ :=
      ⟨by show m0.width - 1 < m0.width; rw [hw]; omega, hy⟩
    rw [mkMaze_get_cell hm hp]
    split_ifs <;> rfl
  · intro x hx
    have hp : m0.inBounds ⟨x, m0.height - 1⟩ :=
      ⟨hx, by show m0.height - 1 < m0.height; rw [hh]; omega⟩
    rw [mkMaze_get_cell hm hp]
    split_ifs <;> rfl

theorem wf_boundary_generateN {m : Maze} (hw : Wf m) (hb : BoundaryOK m) (n : Nat) :
    Wf (generateN m n).1 ∧ BoundaryOK (generateN m n).1 := by
  induction n generalizing m with
  | zero => exact ⟨hw, hb⟩
  | succ k ih =>
    rw [generateN_succ]
    split_ifs
    · exact ⟨wf_step hw, boundaryOK_step hw hb⟩
    · exact ih (wf_step hw) (boundaryOK_step hw hb)

theorem mem_allPositions {m : Maze} {p : Position} :
    p ∈ m.allPositions ↔ m.inBounds p := by
  simp only [allPositions, Finset.mem_image, Finset.mem_product, Finset.mem_range]
  constructor
  · rintro ⟨⟨a, b⟩, ⟨ha, hb⟩, rfl⟩
    exact ⟨ha, hb⟩
  · intro hp
    exact ⟨(p.x, p.y), ⟨hp.1, hp.2⟩, rfl⟩

theorem card_allPositions (m : Maze) : m.allPositions.card = m.width * m.height := by
  unfold allPositions
  rw [Finset.card_image_of_injective]
  · rw [Finset.card_product, Finset.card_range, Finset.card_range]
  · intro a b hab
    cases a; cases b
    simpa [Position.new, Position.mk.injEq, Prod.ext_iff] using hab

theorem card_filter_flip {α : Type} [DecidableEq α] (s : Finset α)
    (P Q : α → Prop) [DecidablePred P] [DecidablePred Q] (a : α)
    (ha : a ∈ s) (hPa : ¬P a) (hQa : Q a)
    (hrest : ∀ b ∈ s, b ≠ a → (P b ↔ Q b)) :
    (s.filter Q).card = (s.filter P).card + 1 := by
  have h1 : s.filter Q = insert a ((s.erase a).filter Q) := by
    ext x
    simp only [Finset.mem_filter, Finset.mem_insert, Finset.mem_erase]
    constructor
    · rintro ⟨hx, hq⟩
      by_cases hxa : x = a
      · exact Or.inl hxa
      · exact Or.inr ⟨⟨hxa, hx⟩, hq⟩
    · rintro (rfl | ⟨⟨hxa, hx⟩, hq⟩)
      · exact ⟨ha, hQa⟩
      · exact ⟨hx, hq⟩
  have h2 : (s.erase a).filter Q = (s.erase a).filter P := by
    apply Finset.filter_congr
    intro b hb
    exact (hrest b (Finset.mem_of_mem_erase hb) (Finset.ne_of_mem_erase hb)).symm
  have h3 : s.filter P = (s.erase a).filter P := by
    ext x
    simp only [Finset.mem_filter, Finset.mem_erase]
    constructor
    · rintro ⟨hx, hp⟩
      refine ⟨⟨?_, hx⟩, hp⟩
      rintro rfl
      exact hPa hp
    · rintro ⟨⟨-, hx⟩, hp⟩
      exact ⟨hx, hp⟩
  rw [h1, h2, ← h3]
  exact Finset.card_insert_of_not_mem fun hmem => hPa (Finset.mem_filter.mp hmem).2

theorem card_filter_iff {α : Type} (s : Finset α)
    (P Q : α → Prop) [DecidablePred P] [DecidablePred Q]
    (hrest : ∀ b ∈ s, (P b ↔ Q b)) :
    (s.filter Q).card = (s.filter P).card := by
  congr 1
  apply Finset.filter_congr
  intro b hb
  exact (hrest b hb).symm

theorem visitedCount_le (m : Maze) : m.visitedCount ≤ m.width * m.height := by
  unfold visitedCount
  calc (m.allPositions.filter fun p => m.visitedAt p).card
      ≤ m.allPositions.card := Finset.card_filter_le _ _
  _ = m.width * m.height := card_allPositions m

theorem allVisited_of_count {m : Maze} (h : m.visitedCount = m.width * m.height) :
    m.allVisited := by
  intro p hp
  unfold visitedCount at h
  rw [← card_allPositions m] at h
  have := Finset.eq_of_subset_of_card_le (Finset.filter_subset _ _) (le_of_eq h.symm)
  have hmem : p ∈ m.allPositions.filter fun q => m.visitedAt q := by
    rw [this]
    exact mem_allPositions.mpr hp
  exact (Finset.mem_filter.mp hmem).2

theorem allPositions_forward (m : Maze) (d : Direction) :
    (forwardState m d).allPositions = m.allPositions := by
  cases d <;> rfl

theorem visitedCount_forward {m : Maze} {d : Direction} (hw : Wf m)
    (hfree : m.dirFree d) :
    (forwardState m d).visitedCount = m.visitedCount + 1 := by
  have hlen := hw.cellsLen
  have hc := hw.cursorIn
  have ht := dirFree_target hc hfree
  unfold visitedCount
  rw [allPositions_forward]
  refine card_filter_flip m.allPositions (fun p => m.visitedAt p)
    (fun p => (forwardState m d).visitedAt p) (d.apply m.cursor)
    (mem_allPositions.mpr ht.1) ht.2 ?_ ?_
  · exact forward_visited_target hlen hc hfree
  · intro b hb hbt
    have hbin := mem_allPositions.mp hb
    constructor
    · exact fun hv => forward_visited_mono hlen hc hfree hbin hv
    · intro hv
      rcases forward_visited_inv hlen hc hfree hbin hv with h | h
      · exact h
      · exact absurd h hbt

theorem wall_present_right {m : Maze} (hw : Wf m) (hfree : m.dirFree .right) :
    (m.get_cell m.cursor.x m.cursor.y).right = true := by
  by_contra hne
  have hfl : (m.get_cell m.cursor.x m.cursor.y).right = false := by
    cases hv : (m.get_cell m.cursor.x m.cursor.y).right
    · rfl
    · exact absurd hv hne
  have ht := dirFree_target hw.cursorIn hfree
  have hcv : m.carvedBetween m.cursor (Direction.right.apply m.cursor) :=
    ⟨hw.cursorIn, ht.1, Or.inl ⟨rfl, rfl, hfl⟩⟩
  exact ht.2 (hw.carvedVis _ _ hcv).2

theorem wall_present_left {m : Maze} (hw : Wf m) (hfree : m.dirFree .left) :
    (m.get_cell (m.cursor.x - 1) m.cursor.y).right = true := by
  by_contra hne
  have hfl : (m.get_cell (m.cursor.x - 1) m.cursor.y).right = false := by
    cases hv : (m.get_cell (m.cursor.x - 1) m.cursor.y).right
    · rfl
    · exact absurd hv hne
  have ht := dirFree_target hw.cursorIn hfree
  have hx0 : m.cursor.x ≠ 0 := hfree.1
  have hcv : m.carvedBetween (Direction.left.apply m.cursor) m.cursor :=
    ⟨ht.1, hw.cursorIn, Or.inl ⟨by show m.cursor.x - 1 + 1 = m.cursor.x; omega, rfl, hfl⟩⟩
  exact ht.2 (hw.carvedVis _ _ hcv).1

theorem wall_present_bottom {m : Maze} (hw : Wf m) (hfree : m.dirFree .bottom) :
    (m.get_cell m.cursor.x m.cursor.y).bottom = true := by
  by_contra hne
  have hfl : (m.get_cell m.cursor.x m.cursor.y).bottom = false := by
    cases hv : (m.get_cell m.cursor.x m.cursor.y).bottom
    · rfl
    · exact absurd hv hne
  have ht := dirFree_target hw.cursorIn hfree
  have hcv : m.carvedBetween m.cursor (Direction.bottom.apply m.cursor) :=
    ⟨hw.cursorIn, ht.1, Or.inr (Or.inr (Or.inl ⟨rfl, rfl, hfl⟩))⟩
  exact ht.2 (hw.carvedVis _ _ hcv).2

theorem wall_present_top {m : Maze} (hw : Wf m) (hfree : m.dirFree .top) :
    (m.get_cell m.cursor.x (m.cursor.y - 1)).bottom = true := by
  by_contra hne
  have hfl : (m.get_cell m.cursor.x (m.cursor.y - 1)).bottom = false := by
    cases hv : (m.get_cell m.cursor.x (m.cursor.y - 1)).bottom
    · rfl
    · exact absurd hv hne
  have ht := dirFree_target hw.cursorIn hfree
  have hy0 : m.cursor.y ≠ 0 := hfree.1
  have hcv : m.carvedBetween (Direction.top.apply m.cursor) m.cursor :=
    ⟨ht.1, hw.cursorIn,
      Or.inr (Or.inr (Or.inl ⟨rfl, by show m.cursor.y - 1 + 1 = m.cursor.y; omega, hfl⟩))⟩
  exact ht.2 (hw.carvedVis _ _ hcv).1

theorem clearedCount_forward {m : Maze} {d : Direction} (hw : Wf m)
    (hfree : m.dirFree d) :
    (forwardState m d).clearedCount = m.clearedCount + 1 := by
  have hlen := hw.cellsLen
  have hc := hw.cursorIn
  have ht := dirFree_target hc hfree
  unfold clearedCount
  rw [allPositions_forward]
  cases d
  case right =>
    have h1 : (m.allPositions.filter
        fun p => ((forwardState m .right).get_cell p.x p.y).right = false).card =
        (m.allPositions.filter fun p => (m.get_cell p.x p.y).right = false).card + 1 := by
      refine card_filter_flip _ _ _ m.cursor (mem_allPositions.mpr hc) ?_ ?_ ?_
      · rw [wall_present_right hw hfree]
        simp
      · exact congrArg MazeCell.right (forward_right_cells hlen hc hfree).2.1
      · intro b hb hbn
        have hbin := mem_allPositions.mp hb
        constructor
        · exact fun hv => forward_right_flag_mono hlen hc hfree hbin hv
        · intro hv
          rcases forward_right_flag_inv hlen hc hfree hbin hv with h | ⟨-, h⟩ | ⟨h, -⟩
          · exact h
          · exact absurd h hbn
          · cases h
    have h2 : (m.allPositions.filter
        fun p => ((forwardState m .right).get_cell p.x p.y).bottom = false).card =
        (m.allPositions.filter fun p => (m.get_cell p.x p.y).bottom = false).card := by
      refine card_filter_iff _ _ _ ?_
      intro b hb
      have hbin := mem_allPositions.mp hb
      constructor
      · exact fun hv => forward_bottom_flag_mono hlen hc hfree hbin hv
      · intro hv
        rcases forward_bottom_flag_inv hlen hc hfree hbin hv with h | ⟨h, -⟩ | ⟨h, -⟩
        · exact h
        · cases h
        · cases h
    omega
  case left =>
    have h1 : (m.allPositions.filter
        fun p => ((forwardState m .left).get_cell p.x p.y).right = false).card =
        (m.allPositions.filter fun p => (m.get_cell p.x p.y).right = false).card + 1 := by
      refine card_filter_flip _ _ _ (Direction.left.apply m.cursor)
        (mem_allPositions.mpr ht.1) ?_ ?_ ?_
      · show ¬(m.get_cell (m.cursor.x - 1) m.cursor.y).right = false
        rw [wall_present_left hw hfree]
        simp
      · exact congrArg MazeCell.right (forward_left_cells hlen hc hfree).2
      · intro b hb hbn
        have hbin := mem_allPositions.mp hb
        constructor
        · exact fun hv => forward_right_flag_mono hlen hc hfree hbin hv
        · intro hv
          rcases forward_right_flag_inv hlen hc hfree hbin hv with h | ⟨h, -⟩ | ⟨-, h⟩
          · exact h
          · cases h
          · exact absurd h hbn
    have h2 : (m.allPositions.filter
        fun p => ((forwardState m .left).get_cell p.x p.y).bottom = false).card =
        (m.allPositions.filter fun p => (m.get_cell p.x p.y).bottom = false).card := by
      refine card_filter_iff _ _ _ ?_
      intro b hb
      have hbin := mem_allPositions.mp hb
      constructor
      · exact fun hv => forward_bottom_flag_mono hlen hc hfree hbin hv
      · intro hv
        rcases forward_bottom_flag_inv hlen hc hfree hbin hv with h | ⟨h, -⟩ | ⟨h, -⟩
        · exact h
        · cases h
        · cases h
    omega
  case bottom =>
    have h1 : (m.allPositions.filter
        fun p => ((forwardState m .bottom).get_cell p.x p.y).bottom = false).card =
        (m.allPositions.filter fun p => (m.get_cell p.x p.y).bottom = false).card + 1 := by
      refine card_filter_flip _ _ _ m.cursor (mem_allPositions.mpr hc) ?_ ?_ ?_
      · rw [wall_present_bottom hw hfree]
        simp
      · exact congrArg MazeCell.bottom (forward_bottom_cells hlen hc hfree).2.1
      · intro b hb hbn
        have hbin := mem_allPositions.mp hb
        constructor
        · exact fun hv => forward_bottom_flag_mono hlen hc hfree hbin hv
        · intro hv
          rcases forward_bottom_flag_inv hlen hc hfree hbin hv with h | ⟨-, h⟩ | ⟨h, -⟩
          · exact h
          · exact absurd h hbn
          · cases h
    have h2 : (m.allPositions.filter
        fun p => ((forwardState m .bottom).get_cell p.x p.y).right = false).card =
        (m.allPositions.filter fun p => (m.get_cell p.x p.y).right = false).card := by
      refine card_filter_iff _ _ _ ?_
      intro b hb
      have hbin := mem_allPositions.mp hb
      constructor
      · exact fun hv => forward_right_flag_mono hlen hc hfree hbin hv
      · intro hv
        rcases forward_right_flag_inv hlen hc hfree hbin hv with h | ⟨h, -⟩ | ⟨h, -⟩
        · exact h
        · cases h
        · cases h
    omega
  case top =>
    have h1 : (m.allPositions.filter
        fun p => ((forwardState m .top).get_cell p.x p.y).bottom = false).card =
        (m.allPositions.filter fun p => (m.get_cell p.x p.y).bottom = false).card + 1 := by
      refine card_filter_flip _ _ _ (Direction.top.apply m.cursor)
        (mem_allPositions.mpr ht.1) ?_ ?_ ?_
      · show ¬(m.get_cell m.cursor.x (m.cursor.y - 1)).bottom = false
        rw [wall_present_top hw hfree]
        simp
      · exact congrArg MazeCell.bottom (forward_top_cells hlen hc hfree).2
      · intro b hb hbn
        have hbin := mem_allPositions.mp hb
        constructor
        · exact fun hv => forward_bottom_flag_mono hlen hc hfree hbin hv
        · intro hv
          rcases forward_bottom_flag_inv hlen hc hfree hbin hv with h | ⟨h, -⟩ | ⟨-, h⟩
          · exact h
          · cases h
          · exact absurd h hbn
    have h2 : (m.allPositions.filter
        fun p => ((forwardState m .top).get_cell p.x p.y).right = false).card =
        (m.allPositions.filter fun p => (m.get_cell p.x p.y).right = false).card := by
      refine card_filter_iff _ _ _ ?_
      intro b hb
      have hbin := mem_allPositions.mp hb
      constructor
      · exact fun hv => forward_right_flag_mono hlen hc hfree hbin hv
      · intro hv
        rcases forward_right_flag_inv hlen hc hfree hbin hv with h | ⟨h, -⟩ | ⟨h, -⟩
        · exact h
        · cases h
        · cases h
    omega

theorem countOK_step {m : Maze} (hw : Wf m) (hco : CountOK m) : CountOK m.gen_step.1 := by
  cases hsel : selectDest m (shuffleOf m) with
  | some dir =>
    rw [gen_step_some hsel]
    have hfree : (withAdv m).dirFree dir :=
      (dirFree_withAdv m dir).mpr (selectDest_some_free hsel)
    unfold CountOK
    rw [clearedCount_forward (wf_withAdv hw) hfree,
      visitedCount_forward (wf_withAdv hw) hfree]
    have h1 : (withAdv m).clearedCount = m.clearedCount := rfl
    have h2 : (withAdv m).visitedCount = m.visitedCount := rfl
    rw [h1, h2]
    unfold CountOK at hco
    omega
  | none =>
    cases htl : m.tail with
    | nil =>
      rw [gen_step_none_nil hsel htl]
      exact hco
    | cons p rest =>
      rw [gen_step_none_cons hsel htl]
      exact hco

theorem countOK_mkMaze {w h : Nat} {rng : Rng} {m0 : Maze}
    (hm : mkMaze w h rng = some m0) : CountOK m0 := by
  have hwf := wf_mkMaze hm
  have hcl : m0.clearedCount = 0 := by
    unfold clearedCount
    have e1 : (m0.allPositions.filter fun p => (m0.get_cell p.x p.y).right = false) = ∅ := by
      refine Finset.filter_eq_empty_iff.mpr ?_
      intro p hp
      rw [mkMaze_get_cell hm (mem_allPositions.mp hp)]
      split_ifs <;> simp
    have e2 : (m0.allPositions.filter fun p => (m0.get_cell p.x p.y).bottom = false) = ∅ := by
      refine Finset.filter_eq_empty_iff.mpr ?_
      intro p hp
      rw [mkMaze_get_cell hm (mem_allPositions.mp hp)]
      split_ifs <;> simp
    rw [e1, e2]
    rfl
  have hvc : m0.visitedCount = 1 := by
    unfold visitedCount
    have e : (m0.allPositions.filter fun p => m0.visitedAt p) = {startPos} := by
      ext p
      simp only [Finset.mem_filter, Finset.mem_singleton]
      constructor
      · rintro ⟨hp, hv⟩
        unfold visitedAt at hv
        rw [mkMaze_get_cell hm (mem_allPositions.mp hp)] at hv
        by_contra hne
        rw [if_neg hne] at hv
        cases hv
      · rintro rfl
        refine ⟨mem_allPositions.mpr ?_, hwf.rootVis⟩
        exact ⟨hwf.wpos, hwf.hpos⟩
    rw [e]
    rfl
  unfold CountOK
  omega

theorem countOK_generateN {m : Maze} (hw : Wf m) (hco : CountOK m) (n : Nat) :
    CountOK (generateN m n).1 := by
  induction n generalizing m with
  | zero => exact hco
  | succ k ih =>
    rw [generateN_succ]
    split_ifs
    · exact countOK_step hw hco
    · exact ih (wf_step hw) (countOK_step hw hco)

theorem measure_decreases {m : Maze} (hw : Wf m) (hfalse : m.gen_step.2 = false) :
    2 * (m.width * m.height - (m.gen_step.1).visitedCount) + (m.gen_step.1).tail.length
      < 2 * (m.width * m.height - m.visitedCount) + m.tail.length := by
  cases hsel : selectDest m (shuffleOf m) with
  | some dir =>
    have heq := gen_step_some hsel
    have hfree : (withAdv m).dirFree dir :=
      (dirFree_withAdv m dir).mpr (selectDest_some_free hsel)
    have hstate : m.gen_step.1 = forwardState (withAdv m) dir := by rw [heq]
    rw [hstate]
    rw [visitedCount_forward (wf_withAdv hw) hfree, forwardState_tail]
    have h2 : (withAdv m).visitedCount = m.visitedCount := rfl
    have h3 : (withAdv m).tail = m.tail := rfl
    rw [h2, h3]
    have hle : (forwardState (withAdv m) dir).visitedCount ≤ m.width * m.height := by
      have := visitedCount_le (forwardState (withAdv m) dir)
      rw [forwardState_width, forwardState_height] at this
      exact this
    rw [visitedCount_forward (wf_withAdv hw) hfree, h2] at hle
    simp only [List.length_cons]
    omega
  | none =>
    cases htl : m.tail with
    | nil =>
      rw [gen_step_none_nil hsel htl] at hfalse
      cases hfalse
    | cons p rest =>
      have heq := gen_step_none_cons hsel htl
      have hstate : m.gen_step.1 = { withAdv m with cursor := p, tail := rest } := by rw [heq]
      rw [hstate]
      have h2 : ({ withAdv m with cursor := p, tail := rest } : Maze).visitedCount
          = m.visitedCount := rfl
      have h3 : ({ withAdv m with cursor := p, tail := rest } : Maze).tail = rest := rfl
      rw [h2, h3]
      simp only [List.length_cons]
      omega

theorem generateN_complete {m : Maze} (hw : Wf m) {n : Nat}
    (hn : 2 * (m.width * m.height - m.visitedCount) + m.tail.length < n) :
    (generateN m n).2 = true := by
  induction n generalizing m with
  | zero => cases hn
  | succ k ih =>
    rw [generateN_succ]
    split_ifs with hd
    · rfl
    · have hfalse : m.gen_step.2 = false := by
        cases hv : m.gen_step.2
        · rfl
        · exact absurd hv hd
      refine ih (wf_step hw) ?_
      have hdec := measure_decreases hw hfalse
      rw [gen_step_width, gen_step_height]
      omega

theorem generateN_mono {m : Maze} {n n' : Nat} (hle : n ≤ n')
    (h : (generateN m n).2 = true) : (generateN m n').2 = true := by
  induction n generalizing m n' with
  | zero => cases h
  | succ k ih =>
    obtain ⟨k', rfl⟩ : ∃ k', n' = k' + 1 := ⟨n' - 1, by omega⟩
    rw [generateN_succ] at h ⊢
    split_ifs with hd
    · rfl
    · rw [if_neg hd] at h
      exact ih (by omega) h

theorem pickOut_spec {l : List Direction} (hl : l ≠ []) (i : Nat) :
    ∃ d l2, pickOut l i = some (d, l2) ∧ (d :: l2).Perm l ∧ l2.length + 1 = l.length := by
  have hlen : 0 < l.length := List.length_pos.mpr hl
  have hilt : i % l.length < l.length := Nat.mod_lt _ hlen
  refine ⟨l.get ⟨i % l.length, hilt⟩, l.eraseIdx (i % l.length), ?_, ?_,
    List.length_eraseIdx_add_one hilt⟩
  · unfold pickOut
    rw [List.get?_eq_getElem?, List.getElem?_eq_getElem hilt]
    rfl
  · have h1 := List.erase_getElem (l := l) (i := i % l.length) hilt
    have h2 : l.Perm (l.get ⟨i % l.length, hilt⟩ :: l.erase (l.get ⟨i % l.length, hilt⟩)) :=
      List.perm_cons_erase (List.get_mem l _ hilt)
    exact (h1.symm.cons _).trans h2.symm

theorem shuffle4_perm (r1 r2 r3 : Nat) :
    (shuffle4 r1 r2 r3).Perm
      [Direction.left, Direction.right, Direction.top, Direction.bottom] := by
  obtain ⟨d1, l1, h1, hp1, hl1⟩ := pickOut_spec
    (l := [Direction.left, Direction.right, Direction.top, Direction.bottom]) (by simp) r1
  have hl1ne : l1 ≠ [] := by
    intro h
    subst h
    simp at hl1
  obtain ⟨d2, l2, h2, hp2, hl2⟩ := pickOut_spec hl1ne r2
  have hl2ne : l2 ≠ [] := by
    intro h
    subst h
    simp at hl1 hl2
    omega
  obtain ⟨d3, l3, h3, hp3, hl3⟩ := pickOut_spec hl2ne r3
  simp only [shuffle4, h1, h2, h3]
  exact (((hp3.cons d2).trans hp2).cons d1).trans hp1

theorem goodRng_seedStream (seed k : Nat) : GoodRng ⟨seedStream seed, k⟩ := by
  intro n
  show (seedStream seed n).Perm _
  unfold seedStream
  exact shuffle4_perm _ _ _

theorem goodRng_idx {r : Rng} (hg : GoodRng r) (k : Nat) : GoodRng ⟨r.stream, k⟩ :=
  fun n => hg n

theorem mem_shuffleOf {m : Maze} (hg : GoodRng m.rng) (d : Direction) :
    d ∈ shuffleOf m :=
  (hg m.rng.idx).mem_iff.mpr (by cases d <;> simp)

theorem selectDest_none_iff_good {m : Maze} (hg : GoodRng m.rng) :
    selectDest m (shuffleOf m) = none ↔ ∀ d, ¬m.dirFree d :=
  ⟨fun h d => (selectDest_none_iff m (shuffleOf m)).mp h d (mem_shuffleOf hg d),
    fun h => (selectDest_none_iff m (shuffleOf m)).mpr fun d _ => h d⟩

theorem selectDest_forced {m : Maze} {l : List Direction} {d : Direction}
    (hmem : d ∈ l) (hfree : m.dirFree d) (hothers : ∀ e, m.dirFree e → e = d) :
    selectDest m l = some d := by
  induction l with
  | nil => cases hmem
  | cons e rest ih =>
    by_cases he : m.dirFree e
    · rw [selectDest_cons_free he, hothers e he]
    · rw [selectDest_cons_skip he]
      rcases List.mem_cons.mp hmem with rfl | hm'
      · exact absurd hfree he
      · exact ih hm'

theorem gen_step_true_elim {m : Maze} (ht : m.gen_step.2 = true) :
    m.tail = [] ∧ selectDest m (shuffleOf m) = none ∧ m.gen_step.1 = withAdv m := by
  cases hsel : selectDest m (shuffleOf m) with
  | some dir =>
    rw [gen_step_some hsel] at ht
    cases ht
  | none =>
    cases htl : m.tail with
    | nil => exact ⟨rfl, rfl, by rw [gen_step_none_nil hsel htl]⟩
    | cons p rest =>
      rw [gen_step_none_cons hsel htl] at ht
      cases ht

theorem get_cell_congr {m1 m2 : Maze} (hww : m1.width = m2.width)
    (hc : m1.cells = m2.cells) (x y : Nat) : m1.get_cell x y = m2.get_cell x y := by
  unfold get_cell get_cell? get_cell_offset
  rw [hww, hc]

theorem dirFree_congr {m1 m2 : Maze} (hww : m1.width = m2.width)
    (hhh : m1.height = m2.height) (hcur : m1.cursor = m2.cursor)
    (hc : m1.cells = m2.cells) (d : Direction) :
    m1.dirFree d ↔ m2.dirFree d := by
  cases d <;> simp only [dirFree, hcur, hww, hhh, get_cell_congr hww hc]

theorem dead_step {m : Maze} (hdead : ∀ d, ¬m.dirFree d) (htl : m.tail = []) :
    m.gen_step = (withAdv m, true) :=
  gen_step_none_nil ((selectDest_none_iff m (shuffleOf m)).mpr fun d _ => hdead d) htl

theorem dead_iter {m : Maze} (hdead : ∀ d, ¬m.dirFree d) (htl : m.tail = []) (k : Nat) :
    (stepIter m k).width = m.width ∧ (stepIter m k).height = m.height ∧
      (stepIter m k).cursor = m.cursor ∧ (stepIter m k).tail = [] ∧
      (stepIter m k).cells = m.cells ∧
      (stepIter m k).gen_step = (withAdv (stepIter m k), true) := by
  induction k with
  | zero => exact ⟨rfl, rfl, rfl, htl, rfl, dead_step hdead htl⟩
  | succ j ih =>
    obtain ⟨hww, hhh, hc, ht, hcl, hstep⟩ := ih
    have hnext : stepIter m (j + 1) = withAdv (stepIter m j) := by
      show (stepIter m j).gen_step.1 = _
      rw [hstep]
    rw [hnext]
    refine ⟨hww, hhh, hc, ht, hcl, ?_⟩
    refine dead_step ?_ ht
    intro d
    rw [dirFree_withAdv, dirFree_congr hww hhh hc hcl]
    exact hdead d

theorem wf_boundary_runCalls {m : Maze} (hw : Wf m) (hb : BoundaryOK m)
    (calls : List Call) :
    Wf (runCalls m calls) ∧ BoundaryOK (runCalls m calls) := by
  induction calls generalizing m with
  | nil => exact ⟨hw, hb⟩
  | cons c rest ih =>
    cases c with
    | stepCall => exact ih (wf_step hw) (boundaryOK_step hw hb)
    | generateCall lim =>
      have := wf_boundary_generateN hw hb (lim.getD usizeMax)
      exact ih this.1 this.2

theorem generateN_zero (m : Maze) : generateN m 0 = (m, false) := rfl

theorem generateN_step_false {m m2 : Maze} (h : m.gen_step = (m2, false)) (n : Nat) :
    generateN m (n + 1) = generateN m2 n := by
  rw [generateN_succ, h]
  rfl

theorem generateN_step_true {m m2 : Maze} (h : m.gen_step = (m2, true)) (n : Nat) :
    generateN m (n + 1) = (m2, true) := by
  rw [generateN_succ, h]
  rfl

theorem generateN_mono_eq {m mf : Maze} {n n' : Nat} (hle : n ≤ n')
    (h : generateN m n = (mf, true)) : generateN m n' = (mf, true) := by
  induction n generalizing m n' with
  | zero =>
    have h2 := congrArg Prod.snd h
    simp [generateN] at h2
  | succ k ih =>
    obtain ⟨k', rfl⟩ : ∃ k', n' = k' + 1 := ⟨n' - 1, by omega⟩
    rw [generateN_succ] at h ⊢
    split_ifs with hd
    · rw [if_pos hd] at h
      exact h
    · rw [if_neg hd] at h
      exact ih (by omega) h

theorem generate_none_eq (m : Maze) : m.generate none = generateN m usizeMax := rfl

/-! Concrete 2×1 run, for an arbitrary seed. -/

theorem from_seed_2_1 (seed : Nat) :
    from_seed 2 1 seed = some ⟨2, 1, ⟨0, 0⟩, [⟨0, 0⟩],
      [⟨true, true, true⟩, ⟨false, true, true⟩], ⟨seedStream seed, 0⟩⟩ := rfl

theorem c8_forced_right (seed : Nat) :
    selectDest (⟨2, 1, ⟨0, 0⟩, [⟨0, 0⟩],
        [⟨true, true, true⟩, ⟨false, true, true⟩], ⟨seedStream seed, 0⟩⟩ : Maze)
      (shuffleOf ⟨2, 1, ⟨0, 0⟩, [⟨0, 0⟩],
        [⟨true, true, true⟩, ⟨false, true, true⟩], ⟨seedStream seed, 0⟩⟩) =
      some .right := by
  refine selectDest_forced (mem_shuffleOf (goodRng_seedStream seed 0) _) ?_ ?_
  · exact ⟨fun hge => Nat.not_succ_le_zero 0 hge, fun hv => Bool.false_ne_true hv⟩
  · intro e he
    cases e with
    | top => exact absurd rfl he.1
    | right => rfl
    | left => exact absurd rfl he.1
    | bottom => exact absurd (Nat.le_refl 0) he.1

theorem c8_step1 (seed : Nat) :
    (⟨2, 1, ⟨0, 0⟩, [⟨0, 0⟩], [⟨true, true, true⟩, ⟨false, true, true⟩],
        ⟨seedStream seed, 0⟩⟩ : Maze).gen_step =
      (⟨2, 1, ⟨1, 0⟩, [⟨1, 0⟩, ⟨0, 0⟩],
        [⟨true, false, true⟩, ⟨true, true, true⟩], ⟨seedStream seed, 1⟩⟩, false) := by
  rw [gen_step_some (c8_forced_right seed)]
  rfl

theorem c8_dead_at_10 (tl : List Position) (r : Rng) (d : Direction) :
    ¬(⟨2, 1, ⟨1, 0⟩, tl, [⟨true, false, true⟩, ⟨true, true, true⟩],
        r⟩ : Maze).dirFree d := by
  cases d <;> intro h
  · exact h.1 rfl
  · exact h.1 (Nat.le_refl 1)
  · exact h.2 rfl
  · exact h.1 (Nat.le_refl 0)

theorem c8_dead_at_00 (tl : List Position) (r : Rng) (d : Direction) :
    ¬(⟨2, 1, ⟨0, 0⟩, tl, [⟨true, false, true⟩, ⟨true, true, true⟩],
        r⟩ : Maze).dirFree d := by
  cases d <;> intro h
  · exact h.1 rfl
  · exact h.2 rfl
  · exact h.1 rfl
  · exact h.1 (Nat.le_refl 0)

theorem c8_step2 (seed : Nat) :
    (⟨2, 1, ⟨1, 0⟩, [⟨1, 0⟩, ⟨0, 0⟩],
        [⟨true, false, true⟩, ⟨true, true, true⟩], ⟨seedStream seed, 1⟩⟩ : Maze).gen_step =
      (⟨2, 1, ⟨1, 0⟩, [⟨0, 0⟩],
        [⟨true, false, true⟩, ⟨true, true, true⟩], ⟨seedStream seed, 2⟩⟩, false) := by
  rw [gen_step_none_cons
    ((selectDest_none_iff _ _).mpr fun d _ => c8_dead_at_10 _ _ d) rfl]
  rfl

theorem c8_step3 (seed : Nat) :
    (⟨2, 1, ⟨1, 0⟩, [⟨0, 0⟩],
        [⟨true, false, true⟩, ⟨true, true, true⟩], ⟨seedStream seed, 2⟩⟩ : Maze).gen_step =
      (⟨2, 1, ⟨0, 0⟩, [],
        [⟨true, false, true⟩, ⟨true, true, true⟩], ⟨seedStream seed, 3⟩⟩, false) := by
  rw [gen_step_none_cons
    ((selectDest_none_iff _ _).mpr fun d _ => c8_dead_at_10 _ _ d) rfl]
  rfl

theorem c8_step4 (seed : Nat) :
    (⟨2, 1, ⟨0, 0⟩, [],
        [⟨true, false, true⟩, ⟨true, true, true⟩], ⟨seedStream seed, 3⟩⟩ : Maze).gen_step =
      (⟨2, 1, ⟨0, 0⟩, [],
        [⟨true, false, true⟩, ⟨true, true, true⟩], ⟨seedStream seed, 4⟩⟩, true) := by
  rw [dead_step (fun d => c8_dead_at_00 _ _ d) rfl]
  rfl

theorem c8_run4 (seed : Nat) :
    generateN (⟨2, 1, ⟨0, 0⟩, [⟨0, 0⟩],
        [⟨true, true, true⟩, ⟨false, true, true⟩], ⟨seedStream seed, 0⟩⟩ : Maze) 4 =
      (⟨2, 1, ⟨0, 0⟩, [],
        [⟨true, false, true⟩, ⟨true, true, true⟩], ⟨seedStream seed, 4⟩⟩, true) :=
  calc generateN _ 4 = generateN _ 3 := generateN_step_false (c8_step1 seed) 3
    _ = generateN _ 2 := generateN_step_false (c8_step2 seed) 2
    _ = generateN _ 1 := generateN_step_false (c8_step3 seed) 1
    _ = _ := generateN_step_true (c8_step4 seed) 0

theorem c8_run3 (seed : Nat) :
    generateN (⟨2, 1, ⟨0, 0⟩, [⟨0, 0⟩],
        [⟨true, true, true⟩, ⟨false, true, true⟩], ⟨seedStream seed, 0⟩⟩ : Maze) 3 =
      (⟨2, 1, ⟨0, 0⟩, [],
        [⟨true, false, true⟩, ⟨true, true, true⟩], ⟨seedStream seed, 3⟩⟩, false) :=
  calc generateN _ 3 = generateN _ 2 := generateN_step_false (c8_step1 seed) 2
    _ = generateN _ 1 := generateN_step_false (c8_step2 seed) 1
    _ = generateN _ 0 := generateN_step_false (c8_step3 seed) 0
    _ = _ := generateN_zero _

/-! Concrete 1×1 run, for an arbitrary seed. -/

theorem from_seed_1_1 (seed : Nat) :
    from_seed 1 1 seed = some ⟨1, 1, ⟨0, 0⟩, [⟨0, 0⟩],
      [⟨true, true, true⟩], ⟨seedStream seed, 0⟩⟩ := rfl

theorem dead_1x1 (tl : List Position) (cl : List MazeCell) (r : Rng) (d : Direction) :
    ¬(⟨1, 1, ⟨0, 0⟩, tl, cl, r⟩ : Maze).dirFree d := by
  cases d <;> intro h
  · exact h.1 rfl
  · exact h.1 (Nat.le_refl 0)
  · exact h.1 rfl
  · exact h.1 (Nat.le_refl 0)

theorem c9_step1 (seed : Nat) :
    (⟨1, 1, ⟨0, 0⟩, [⟨0, 0⟩], [⟨true, true, true⟩],
        ⟨seedStream seed, 0⟩⟩ : Maze).gen_step =
      (⟨1, 1, ⟨0, 0⟩, [], [⟨true, true, true⟩], ⟨seedStream seed, 1⟩⟩, false) := by
  rw [gen_step_none_cons
    ((selectDest_none_iff _ _).mpr fun d _ => dead_1x1 _ _ _ d) rfl]
  rfl

theorem c9_step2 (seed : Nat) :
    (⟨1, 1, ⟨0, 0⟩, [], [⟨true, true, true⟩],
        ⟨seedStream seed, 1⟩⟩ : Maze).gen_step =
      (⟨1, 1, ⟨0, 0⟩, [], [⟨true, true, true⟩], ⟨seedStream seed, 2⟩⟩, true) := by
  rw [dead_step (fun d => dead_1x1 _ _ _ d) rfl]
  rfl

/-! Toolbox for the spanning-tree development. -/

theorem pos_ext {p q : Position} (hx : p.x = q.x) (hy : p.y = q.y) : p = q := by
  cases p with
  | mk a b =>
    cases q with
    | mk e f =>
      dsimp only at hx hy
      subst hx
      subst hy
      rfl

theorem adjacent_symm {p q : Position} (h : Adjacent p q) : Adjacent q p := by
  rcases h with h | h | h | h
  · exact Or.inr (Or.inl ⟨h.1, h.2.symm⟩)
  · exact Or.inl ⟨h.1, h.2.symm⟩
  · exact Or.inr (Or.inr (Or.inr ⟨h.1.symm, h.2⟩))
  · exact Or.inr (Or.inr (Or.inl ⟨h.1.symm, h.2⟩))

theorem carved_symm {m : Maze} {p q : Position} (h : m.carvedBetween p q) :
    m.carvedBetween q p := by
  obtain ⟨hp, hq, hc⟩ := h
  refine ⟨hq, hp, ?_⟩
  rcases hc with h | h | h | h
  · exact Or.inr (Or.inl h)
  · exact Or.inl h
  · exact Or.inr (Or.inr (Or.inr ⟨h.1.symm, h.2.1, h.2.2⟩))
  · exact Or.inr (Or.inr (Or.inl ⟨h.1.symm, h.2.1, h.2.2⟩))

theorem adj_apply {c q : Position} (h : Adjacent c q) : ∃ d : Direction, q = d.apply c := by
  rcases h with h | h | h | h
  · exact ⟨.right, pos_ext h.1.symm h.2.symm⟩
  · exact ⟨.left, pos_ext (by have := h.1; show q.x = c.x - 1; omega) h.2.symm⟩
  · exact ⟨.bottom, pos_ext h.1.symm h.2.symm⟩
  · exact ⟨.top, pos_ext h.1.symm (by have := h.2; show q.y = c.y - 1; omega)⟩

theorem adjacent_target {m : Maze} {d : Direction} (hfree : m.dirFree d) :
    Adjacent m.cursor (d.apply m.cursor) := by
  cases d
  · refine Or.inr (Or.inr (Or.inr ⟨rfl, ?_⟩))
    have h0 : ¬m.cursor.y = 0 := hfree.1
    show m.cursor.y - 1 + 1 = m.cursor.y
    omega
  · exact Or.inl ⟨rfl, rfl⟩
  · refine Or.inr (Or.inl ⟨?_, rfl⟩)
    have h0 : ¬m.cursor.x = 0 := hfree.1
    show m.cursor.x - 1 + 1 = m.cursor.x
    omega
  · exact Or.inr (Or.inr (Or.inl ⟨rfl, rfl⟩))

theorem adj_start {w : Position} (h : Adjacent startPos w) :
    w = (⟨1, 0⟩ : Position) ∨ w = (⟨0, 1⟩ : Position) := by
  rcases h with h | h | h | h
  · refine Or.inl (pos_ext ?_ ?_)
    · have h1 : 0 + 1 = w.x := h.1
      show w.x = 1
      omega
    · have h2 : 0 = w.y := h.2
      show w.y = 0
      omega
  · exfalso
    have h1 : w.x + 1 = 0 := h.1
    omega
  · refine Or.inr (pos_ext ?_ ?_)
    · have h1 : 0 = w.x := h.1
      show w.x = 0
      omega
    · have h2 : 0 + 1 = w.y := h.2
      show w.y = 1
      omega
  · exfalso
    have h2 : w.y + 1 = 0 := h.2
    omega

theorem dir_cover : ∀ d1 d2 d3 d4 : Direction,
    d1 ≠ d2 → d1 ≠ d3 → d1 ≠ d4 → d2 ≠ d3 → d2 ≠ d4 → d3 ≠ d4 →
    ∀ d, d = d1 ∨ d = d2 ∨ d = d3 ∨ d = d4 := by decide

theorem interior_of_four {m : Maze} {c : Position}
    (h : ∀ d : Direction, m.inBounds (d.apply c) ∧ Adjacent c (d.apply c)) :
    m.interior c := by
  refine ⟨?_, ?_, ?_, ?_⟩
  · have hl := (h .left).2
    rcases hl with hl | hl | hl | hl
    · have h1 := hl.1
      dsimp only [Direction.apply] at h1
      omega
    · have h1 := hl.1
      dsimp only [Direction.apply] at h1
      omega
    · have h1 := hl.2
      dsimp only [Direction.apply] at h1
      omega
    · have h1 := hl.2
      dsimp only [Direction.apply] at h1
      omega
  · have hr := (h .right).1
    exact hr.1
  · have ht := (h .top).2
    rcases ht with ht | ht | ht | ht
    · have h1 := ht.1
      dsimp only [Direction.apply] at h1
      omega
    · have h1 := ht.1
      dsimp only [Direction.apply] at h1
      omega
    · have h1 := ht.2
      dsimp only [Direction.apply] at h1
      omega
    · have h1 := ht.2
      dsimp only [Direction.apply] at h1
      omega
  · have hb := (h .bottom).1
    exact hb.2

theorem dead_of_none {m : Maze} (hg : GoodRng m.rng)
    (hnone : selectDest m (shuffleOf m) = none) : m.Dead m.cursor := by
  have hnf := (selectDest_none_iff_good hg).mp hnone
  intro u hu hadj
  rcases hadj with h | h | h | h
  · have hr := hnf .right
    rw [dirFree, not_and_or, not_not, not_not] at hr
    rcases hr with hb | hv
    · exfalso
      have h1 := h.1
      have h2 := hu.1
      omega
    · have hequ : u = (⟨m.cursor.x + 1, m.cursor.y⟩ : Position) :=
        pos_ext h.1.symm h.2.symm
      rw [hequ]
      exact hv
  · have hr := hnf .left
    rw [dirFree, not_and_or, not_not, not_not] at hr
    rcases hr with hb | hv
    · exfalso
      have h1 := h.1
      omega
    · have hequ : u = (⟨m.cursor.x - 1, m.cursor.y⟩ : Position) :=
        pos_ext (by have := h.1; show u.x = m.cursor.x - 1; omega) h.2.symm
      rw [hequ]
      exact hv
  · have hr := hnf .bottom
    rw [dirFree, not_and_or, not_not, not_not] at hr
    rcases hr with hb | hv
    · exfalso
      have h1 := h.2
      have h2 := hu.2
      omega
    · have hequ : u = (⟨m.cursor.x, m.cursor.y + 1⟩ : Position) :=
        pos_ext h.1.symm h.2.symm
      rw [hequ]
      exact hv
  · have hr := hnf .top
    rw [dirFree, not_and_or, not_not, not_not] at hr
    rcases hr with hb | hv
    · exfalso
      have h1 := h.2
      omega
    · have hequ : u = (⟨m.cursor.x, m.cursor.y - 1⟩ : Position) :=
        pos_ext h.1.symm (by have := h.2; show u.y = m.cursor.y - 1; omega)
      rw [hequ]
      exact hv

theorem dead_forward {m : Maze} {d : Direction}
    (hlen : m.cells.length = m.width * m.height) (hc : m.inBounds m.cursor)
    (hfree : m.dirFree d) {c : Position} (hd : m.Dead c) :
    (forwardState m d).Dead c := by
  intro u hu hadj
  rw [inBounds_forward] at hu
  exact forward_visited_mono hlen hc hfree hu (hd u hu hadj)

theorem carvedNbrs_subset_forward {m : Maze} {d : Direction}
    (hlen : m.cells.length = m.width * m.height) (hc : m.inBounds m.cursor)
    (hfree : m.dirFree d) (c : Position) :
    m.carvedNbrs c ⊆ (forwardState m d).carvedNbrs c := by
  intro q hq
  rw [carvedNbrs, Finset.mem_filter] at hq
  rw [carvedNbrs, allPositions_forward, Finset.mem_filter]
  exact ⟨hq.1, hq.2.1, carved_mono hlen hc hfree hq.2.2⟩

theorem mem_carvedNbrs {m : Maze} {c q : Position} :
    q ∈ m.carvedNbrs c ↔ m.inBounds q ∧ Adjacent c q ∧ m.carvedBetween c q := by
  rw [carvedNbrs, Finset.mem_filter, mem_allPositions]

theorem carvedNbrs_card_succ {m : Maze} {d : Direction} (hw : Wf m)
    (hfree : m.dirFree d) :
    (m.carvedNbrs m.cursor).card + 1 ≤
      ((forwardState m d).carvedNbrs m.cursor).card := by
  have ht := dirFree_target hw.cursorIn hfree
  have hnotmem : d.apply m.cursor ∉ m.carvedNbrs m.cursor := by
    intro hmem
    exact ht.2 (hw.carvedVis _ _ (mem_carvedNbrs.mp hmem).2.2).2
  have hsub : insert (d.apply m.cursor) (m.carvedNbrs m.cursor) ⊆
      (forwardState m d).carvedNbrs m.cursor := by
    intro q hq
    rcases Finset.mem_insert.mp hq with rfl | hq2
    · rw [carvedNbrs, allPositions_forward, Finset.mem_filter]
      exact ⟨mem_allPositions.mpr ht.1, adjacent_target hfree,
        carved_new hw.cellsLen hw.cursorIn hfree⟩
    · exact carvedNbrs_subset_forward hw.cellsLen hw.cursorIn hfree _ hq2
  calc (m.carvedNbrs m.cursor).card + 1
      = (insert (d.apply m.cursor) (m.carvedNbrs m.cursor)).card :=
        (Finset.card_insert_of_not_mem hnotmem).symm
    _ ≤ ((forwardState m d).carvedNbrs m.cursor).card := Finset.card_le_card hsub

theorem edges2_forward {m : Maze} {d : Direction} (hw : Wf m)
    (hfree : m.dirFree d) {c : Position} (he : m.edges2 c) :
    (forwardState m d).edges2 c := by
  have hsub := Finset.card_le_card
    (carvedNbrs_subset_forward hw.cellsLen hw.cursorIn hfree c)
  rcases he with h | ⟨hs, h⟩
  · exact Or.inl (le_trans h hsub)
  · exact Or.inr ⟨hs, le_trans h hsub⟩

theorem reachable_forward {m : Maze} {d : Direction} (hw : Wf m)
    (hfree : m.dirFree d) {p q : Position} (hr : m.Reachable p q) :
    (forwardState m d).Reachable p q :=
  Relation.ReflTransGen.mono
    (fun _ _ hab => carved_mono hw.cellsLen hw.cursorIn hfree hab) hr

theorem mkMaze_no_carved {w h : Nat} {rng : Rng} {m0 : Maze}
    (hm : mkMaze w h rng = some m0) : ∀ p q, ¬m0.carvedBetween p q := by
  intro p q hpq
  obtain ⟨hp, hq, hcase⟩ := hpq
  rcases hcase with ⟨-, -, h3⟩ | ⟨-, -, h3⟩ | ⟨-, -, h3⟩ | ⟨-, -, h3⟩ <;>
    rw [mkMaze_get_cell hm (by assumption)] at h3 <;>
    split_ifs at h3 <;>
    cases h3

theorem treeInv_mkMaze {w h : Nat} {rng : Rng} {m0 : Maze}
    (hm : mkMaze w h rng = some m0) : TreeInv m0 :=
  ⟨id, fun _ => 0, fun p q hc => absurd hc (mkMaze_no_carved hm p q)⟩

theorem treeInv_forward {m : Maze} (hw : Wf m) {d : Direction} (hfree : m.dirFree d)
    (ht : TreeInv m) : TreeInv (forwardState m d) := by
  obtain ⟨par, rank, hpr⟩ := ht
  have htgt := dirFree_target hw.cursorIn hfree
  have hct : m.cursor ≠ d.apply m.cursor := by
    intro h
    exact htgt.2 (h ▸ hw.cursorVis)
  refine ⟨fun x => if x = d.apply m.cursor then m.cursor else par x,
    fun x => if x = d.apply m.cursor then rank m.cursor + 1 else rank x, ?_⟩
  intro p q hpq
  rcases carved_inv hw.cellsLen hw.cursorIn hfree hpq with hold | ⟨hp, hq⟩ | ⟨hp, hq⟩
  · have hpv := (hw.carvedVis p q hold).1
    have hqv := (hw.carvedVis p q hold).2
    have hpne : p ≠ d.apply m.cursor := fun h2 => htgt.2 (h2 ▸ hpv)
    have hqne : q ≠ d.apply m.cursor := fun h2 => htgt.2 (h2 ▸ hqv)
    simp only [if_neg hpne, if_neg hqne]
    exact hpr p q hold
  · subst hp
    subst hq
    refine Or.inr ⟨?_, ?_⟩
    · show (if d.apply m.cursor = d.apply m.cursor then m.cursor
          else par (d.apply m.cursor)) = m.cursor
      rw [if_pos rfl]
    · show (if m.cursor = d.apply m.cursor then rank m.cursor + 1 else rank m.cursor) <
          (if d.apply m.cursor = d.apply m.cursor then rank m.cursor + 1
            else rank (d.apply m.cursor))
      rw [if_pos rfl, if_neg hct]
      omega
  · subst hp
    subst hq
    refine Or.inl ⟨?_, ?_⟩
    · show (if d.apply m.cursor = d.apply m.cursor then m.cursor
          else par (d.apply m.cursor)) = m.cursor
      rw [if_pos rfl]
    · show (if m.cursor = d.apply m.cursor then rank m.cursor + 1 else rank m.cursor) <
          (if d.apply m.cursor = d.apply m.cursor then rank m.cursor + 1
            else rank (d.apply m.cursor))
      rw [if_pos rfl, if_neg hct]
      omega

theorem exists_frontier {m : Maze} (hw : Wf m) {u0 : Position} (hub : m.inBounds u0)
    (hunv : ¬m.visitedAt u0) :
    ∃ v u, m.inBounds v ∧ m.inBounds u ∧ Adjacent v u ∧ m.visitedAt v ∧ ¬m.visitedAt u := by
  have main : ∀ k (a : Position),
      a.x - u0.x + (u0.x - a.x) + (a.y - u0.y + (u0.y - a.y)) ≤ k →
      m.inBounds a → m.visitedAt a →
      ∃ v u, m.inBounds v ∧ m.inBounds u ∧ Adjacent v u ∧ m.visitedAt v ∧
        ¬m.visitedAt u := by
    intro k
    induction k with
    | zero =>
      intro a hd ha hav
      have hax : a.x = u0.x := by omega
      have hay : a.y = u0.y := by omega
      rw [pos_ext hax hay] at hav
      exact absurd hav hunv
    | succ n ih =>
      intro a hd ha hav
      by_cases hax : a.x = u0.x
      · by_cases hay : a.y = u0.y
        · rw [pos_ext hax hay] at hav
          exact absurd hav hunv
        · by_cases hlt : a.y < u0.y
          · have hb : m.inBounds ⟨a.x, a.y + 1⟩ := ⟨ha.1, by have := hub.2; show a.y + 1 < m.height; omega⟩
            have hadj : Adjacent a ⟨a.x, a.y + 1⟩ := Or.inr (Or.inr (Or.inl ⟨rfl, rfl⟩))
            by_cases hbv : m.visitedAt ⟨a.x, a.y + 1⟩
            · refine ih ⟨a.x, a.y + 1⟩ ?_ hb hbv
              show a.x - u0.x + (u0.x - a.x) + (a.y + 1 - u0.y + (u0.y - (a.y + 1))) ≤ n
              omega
            · exact ⟨a, ⟨a.x, a.y + 1⟩, ha, hb, hadj, hav, hbv⟩
          · have hb : m.inBounds ⟨a.x, a.y - 1⟩ := ⟨ha.1, by have := ha.2; show a.y - 1 < m.height; omega⟩
            have hadj : Adjacent a ⟨a.x, a.y - 1⟩ :=
              Or.inr (Or.inr (Or.inr ⟨rfl, by show a.y - 1 + 1 = a.y; omega⟩))
            by_cases hbv : m.visitedAt ⟨a.x, a.y - 1⟩
            · refine ih ⟨a.x, a.y - 1⟩ ?_ hb hbv
              show a.x - u0.x + (u0.x - a.x) + (a.y - 1 - u0.y + (u0.y - (a.y - 1))) ≤ n
              omega
            · exact ⟨a, ⟨a.x, a.y - 1⟩, ha, hb, hadj, hav, hbv⟩
      · by_cases hlt : a.x < u0.x
        · have hb : m.inBounds ⟨a.x + 1, a.y⟩ := ⟨by have := hub.1; show a.x + 1 < m.width; omega, ha.2⟩
          have hadj : Adjacent a ⟨a.x + 1, a.y⟩ := Or.inl ⟨rfl, rfl⟩
          by_cases hbv : m.visitedAt ⟨a.x + 1, a.y⟩
          · refine ih ⟨a.x + 1, a.y⟩ ?_ hb hbv
            show a.x + 1 - u0.x + (u0.x - (a.x + 1)) + (a.y - u0.y + (u0.y - a.y)) ≤ n
            omega
          · exact ⟨a, ⟨a.x + 1, a.y⟩, ha, hb, hadj, hav, hbv⟩
        · have hb : m.inBounds ⟨a.x - 1, a.y⟩ := ⟨by have := ha.1; show a.x - 1 < m.width; omega, ha.2⟩
          have hadj : Adjacent a ⟨a.x - 1, a.y⟩ :=
            Or.inr (Or.inl ⟨by show a.x - 1 + 1 = a.x; omega, rfl⟩)
          by_cases hbv : m.visitedAt ⟨a.x - 1, a.y⟩
          · refine ih ⟨a.x - 1, a.y⟩ ?_ hb hbv
            show a.x - 1 - u0.x + (u0.x - (a.x - 1)) + (a.y - u0.y + (u0.y - a.y)) ≤ n
            omega
          · exact ⟨a, ⟨a.x - 1, a.y⟩, ha, hb, hadj, hav, hbv⟩
  exact main _ startPos (le_refl _) ⟨hw.wpos, hw.hpos⟩ hw.rootVis

theorem no_orphan {m : Maze} (hw : Wf m)
    (hS2 : ∀ v, m.inBounds v → m.visitedAt v →
      ∀ u, m.inBounds u → Adjacent v u → ¬m.visitedAt u →
        m.interior v ∧ ∀ q, m.inBounds q → Adjacent v q → q ≠ u → m.carvedBetween v q)
    (ht : TreeInv m) {u0 : Position} (hub : m.inBounds u0) (hunv : ¬m.visitedAt u0) :
    False := by
  obtain ⟨par, rank, hpr⟩ := ht
  obtain ⟨v1, u1, hv1b, hu1b, hadj1, hv1v, hu1v⟩ := exists_frontier hw hub hunv
  set P := m.allPositions.filter (fun v => m.visitedAt v ∧
      ((∃ u ∈ m.allPositions, Adjacent v u ∧ ¬m.visitedAt u) ∨
        (∃ u ∈ m.allPositions, DiagAdjacent v u ∧ ¬m.visitedAt u))) with hP
  have hmemP : ∀ {v : Position}, v ∈ P ↔ m.inBounds v ∧ m.visitedAt v ∧
      ((∃ u, m.inBounds u ∧ Adjacent v u ∧ ¬m.visitedAt u) ∨
        (∃ u, m.inBounds u ∧ DiagAdjacent v u ∧ ¬m.visitedAt u)) := by
    intro v
    rw [hP, Finset.mem_filter, mem_allPositions]
    constructor
    · rintro ⟨hb, hv, hcase⟩
      refine ⟨hb, hv, ?_⟩
      rcases hcase with ⟨u, humem, h1, h2⟩ | ⟨u, humem, h1, h2⟩
      · exact Or.inl ⟨u, mem_allPositions.mp humem, h1, h2⟩
      · exact Or.inr ⟨u, mem_allPositions.mp humem, h1, h2⟩
    · rintro ⟨hb, hv, hcase⟩
      refine ⟨hb, hv, ?_⟩
      rcases hcase with ⟨u, hub2, h1, h2⟩ | ⟨u, hub2, h1, h2⟩
      · exact Or.inl ⟨u, mem_allPositions.mpr hub2, h1, h2⟩
      · exact Or.inr ⟨u, mem_allPositions.mpr hub2, h1, h2⟩
  have hPne : P.Nonempty := ⟨v1, hmemP.mpr ⟨hv1b, hv1v, Or.inl ⟨u1, hu1b, hadj1, hu1v⟩⟩⟩
  have hstep : ∀ s ∈ P, ∃ a b, a ∈ P ∧ b ∈ P ∧ a ≠ b ∧
      m.carvedBetween s a ∧ m.carvedBetween s b := by
    intro s hs
    obtain ⟨hsb, hsv, hcase⟩ := hmemP.mp hs
    by_cases hTII : ∃ u, m.inBounds u ∧ Adjacent s u ∧ ¬m.visitedAt u
    · obtain ⟨u, hub2, hadj, hunv2⟩ := hTII
      obtain ⟨hint, hoth⟩ := hS2 s hsb hsv u hub2 hadj hunv2
      obtain ⟨hi1, hi2, hi3, hi4⟩ := hint
      rcases hadj with hrel | hrel | hrel | hrel
      · -- u to the right of s: perpendicular partners above and below
        have hq1b : m.inBounds ⟨s.x, s.y + 1⟩ := ⟨hsb.1, hi4⟩
        have hq2b : m.inBounds ⟨s.x, s.y - 1⟩ := ⟨hsb.1, by have := hsb.2; show s.y - 1 < m.height; omega⟩
        have hq1adj : Adjacent s ⟨s.x, s.y + 1⟩ := Or.inr (Or.inr (Or.inl ⟨rfl, rfl⟩))
        have hq2adj : Adjacent s ⟨s.x, s.y - 1⟩ :=
          Or.inr (Or.inr (Or.inr ⟨rfl, by show s.y - 1 + 1 = s.y; omega⟩))
        have hq1ne : (⟨s.x, s.y + 1⟩ : Position) ≠ u := by
          intro h2
          have h3 := congrArg Position.x h2
          dsimp only at h3
          have := hrel.1
          omega
        have hq2ne : (⟨s.x, s.y - 1⟩ : Position) ≠ u := by
          intro h2
          have h3 := congrArg Position.x h2
          dsimp only at h3
          have := hrel.1
          omega
        have hc1 := hoth _ hq1b hq1adj hq1ne
        have hc2 := hoth _ hq2b hq2adj hq2ne
        have hq12 : (⟨s.x, s.y + 1⟩ : Position) ≠ ⟨s.x, s.y - 1⟩ := by
          intro h2
          have h3 := congrArg Position.y h2
          dsimp only at h3
          omega
        refine ⟨⟨s.x, s.y + 1⟩, ⟨s.x, s.y - 1⟩, ?_, ?_, hq12, hc1, hc2⟩
        · refine hmemP.mpr ⟨hq1b, (hw.carvedVis _ _ hc1).2, Or.inr ⟨u, hub2, ?_, hunv2⟩⟩
          exact ⟨Or.inl (by show s.x + 1 = u.x; exact hrel.1),
            Or.inr (by show u.y + 1 = s.y + 1; have := hrel.2; omega)⟩
        · refine hmemP.mpr ⟨hq2b, (hw.carvedVis _ _ hc2).2, Or.inr ⟨u, hub2, ?_, hunv2⟩⟩
          exact ⟨Or.inl (by show s.x + 1 = u.x; exact hrel.1),
            Or.inl (by show s.y - 1 + 1 = u.y; have := hrel.2; omega)⟩
      · -- u to the left of s
        have hq1b : m.inBounds ⟨s.x, s.y + 1⟩ := ⟨hsb.1, hi4⟩
        have hq2b : m.inBounds ⟨s.x, s.y - 1⟩ := ⟨hsb.1, by have := hsb.2; show s.y - 1 < m.height; omega⟩
        have hq1adj : Adjacent s ⟨s.x, s.y + 1⟩ := Or.inr (Or.inr (Or.inl ⟨rfl, rfl⟩))
        have hq2adj : Adjacent s ⟨s.x, s.y - 1⟩ :=
          Or.inr (Or.inr (Or.inr ⟨rfl, by show s.y - 1 + 1 = s.y; omega⟩))
        have hq1ne : (⟨s.x, s.y + 1⟩ : Position) ≠ u := by
          intro h2
          have h3 := congrArg Position.x h2
          dsimp only at h3
          have := hrel.1
          omega
        have hq2ne : (⟨s.x, s.y - 1⟩ : Position) ≠ u := by
          intro h2
          have h3 := congrArg Position.x h2
          dsimp only at h3
          have := hrel.1
          omega
        have hc1 := hoth _ hq1b hq1adj hq1ne
        have hc2 := hoth _ hq2b hq2adj hq2ne
        have hq12 : (⟨s.x, s.y + 1⟩ : Position) ≠ ⟨s.x, s.y - 1⟩ := by
          intro h2
          have h3 := congrArg Position.y h2
          dsimp only at h3
          omega
        refine ⟨⟨s.x, s.y + 1⟩, ⟨s.x, s.y - 1⟩, ?_, ?_, hq12, hc1, hc2⟩
        · refine hmemP.mpr ⟨hq1b, (hw.carvedVis _ _ hc1).2, Or.inr ⟨u, hub2, ?_, hunv2⟩⟩
          exact ⟨Or.inr (by show u.x + 1 = s.x; exact hrel.1),
            Or.inr (by show u.y + 1 = s.y + 1; have := hrel.2; omega)⟩
        · refine hmemP.mpr ⟨hq2b, (hw.carvedVis _ _ hc2).2, Or.inr ⟨u, hub2, ?_, hunv2⟩⟩
          exact ⟨Or.inr (by show u.x + 1 = s.x; exact hrel.1),
            Or.inl (by show s.y - 1 + 1 = u.y; have := hrel.2; omega)⟩
      · -- u below s: perpendicular partners right and left
        have hq1b : m.inBounds ⟨s.x + 1, s.y⟩ := ⟨hi2, hsb.2⟩
        have hq2b : m.inBounds ⟨s.x - 1, s.y⟩ := ⟨by have := hsb.1; show s.x - 1 < m.width; omega, hsb.2⟩
        have hq1adj : Adjacent s ⟨s.x + 1, s.y⟩ := Or.inl ⟨rfl, rfl⟩
        have hq2adj : Adjacent s ⟨s.x - 1, s.y⟩ :=
          Or.inr (Or.inl ⟨by show s.x - 1 + 1 = s.x; omega, rfl⟩)
        have hq1ne : (⟨s.x + 1, s.y⟩ : Position) ≠ u := by
          intro h2
          have h3 := congrArg Position.y h2
          dsimp only at h3
          have := hrel.2
          omega
        have hq2ne : (⟨s.x - 1, s.y⟩ : Position) ≠ u := by
          intro h2
          have h3 := congrArg Position.y h2
          dsimp only at h3
          have := hrel.2
          omega
        have hc1 := hoth _ hq1b hq1adj hq1ne
        have hc2 := hoth _ hq2b hq2adj hq2ne
        have hq12 : (⟨s.x + 1, s.y⟩ : Position) ≠ ⟨s.x - 1, s.y⟩ := by
          intro h2
          have h3 := congrArg Position.x h2
          dsimp only at h3
          omega
        refine ⟨⟨s.x + 1, s.y⟩, ⟨s.x - 1, s.y⟩, ?_, ?_, hq12, hc1, hc2⟩
        · refine hmemP.mpr ⟨hq1b, (hw.carvedVis _ _ hc1).2, Or.inr ⟨u, hub2, ?_, hunv2⟩⟩
          exact ⟨Or.inr (by show u.x + 1 = s.x + 1; have := hrel.1; omega),
            Or.inl (by show s.y + 1 = u.y; exact hrel.2)⟩
        · refine hmemP.mpr ⟨hq2b, (hw.carvedVis _ _ hc2).2, Or.inr ⟨u, hub2, ?_, hunv2⟩⟩
          exact ⟨Or.inl (by show s.x - 1 + 1 = u.x; have := hrel.1; omega),
            Or.inl (by show s.y + 1 = u.y; exact hrel.2)⟩
      · -- u above s
        have hq1b : m.inBounds ⟨s.x + 1, s.y⟩ := ⟨hi2, hsb.2⟩
        have hq2b : m.inBounds ⟨s.x - 1, s.y⟩ := ⟨by have := hsb.1; show s.x - 1 < m.width; omega, hsb.2⟩
        have hq1adj : Adjacent s ⟨s.x + 1, s.y⟩ := Or.inl ⟨rfl, rfl⟩
        have hq2adj : Adjacent s ⟨s.x - 1, s.y⟩ :=
          Or.inr (Or.inl ⟨by show s.x - 1 + 1 = s.x; omega, rfl⟩)
        have hq1ne : (⟨s.x + 1, s.y⟩ : Position) ≠ u := by
          intro h2
          have h3 := congrArg Position.y h2
          dsimp only at h3
          have := hrel.2
          omega
        have hq2ne : (⟨s.x - 1, s.y⟩ : Position) ≠ u := by
          intro h2
          have h3 := congrArg Position.y h2
          dsimp only at h3
          have := hrel.2
          omega
        have hc1 := hoth _ hq1b hq1adj hq1ne
        have hc2 := hoth _ hq2b hq2adj hq2ne
        have hq12 : (⟨s.x + 1, s.y⟩ : Position) ≠ ⟨s.x - 1, s.y⟩ := by
          intro h2
          have h3 := congrArg Position.x h2
          dsimp only at h3
          omega
        refine ⟨⟨s.x + 1, s.y⟩, ⟨s.x - 1, s.y⟩, ?_, ?_, hq12, hc1, hc2⟩
        · refine hmemP.mpr ⟨hq1b, (hw.carvedVis _ _ hc1).2, Or.inr ⟨u, hub2, ?_, hunv2⟩⟩
          exact ⟨Or.inr (by show u.x + 1 = s.x + 1; have := hrel.1; omega),
            Or.inr (by show u.y + 1 = s.y; exact hrel.2)⟩
        · refine hmemP.mpr ⟨hq2b, (hw.carvedVis _ _ hc2).2, Or.inr ⟨u, hub2, ?_, hunv2⟩⟩
          exact ⟨Or.inl (by show s.x - 1 + 1 = u.x; have := hrel.1; omega),
            Or.inr (by show u.y + 1 = s.y; exact hrel.2)⟩
    · have hnoadj : ∀ q, m.inBounds q → Adjacent s q → m.visitedAt q := by
        intro q hq hadjq
        by_contra hqv
        exact hTII ⟨q, hq, hadjq, hqv⟩
      have hdiag : ∃ u, m.inBounds u ∧ DiagAdjacent s u ∧ ¬m.visitedAt u := by
        rcases hcase with h | h
        · exact absurd h hTII
        · exact h
      obtain ⟨u, hub2, hdg, hunv2⟩ := hdiag
      obtain ⟨hdx, hdy⟩ := hdg
      have hc1b : m.inBounds ⟨s.x, u.y⟩ := ⟨hsb.1, hub2.2⟩
      have hc2b : m.inBounds ⟨u.x, s.y⟩ := ⟨hub2.1, hsb.2⟩
      have hadjc1 : Adjacent s ⟨s.x, u.y⟩ := by
        rcases hdy with h | h
        · exact Or.inr (Or.inr (Or.inl ⟨rfl, by show s.y + 1 = u.y; exact h⟩))
        · exact Or.inr (Or.inr (Or.inr ⟨rfl, by show u.y + 1 = s.y; exact h⟩))
      have hadjc2 : Adjacent s ⟨u.x, s.y⟩ := by
        rcases hdx with h | h
        · exact Or.inl ⟨by show s.x + 1 = u.x; exact h, rfl⟩
        · exact Or.inr (Or.inl ⟨by show u.x + 1 = s.x; exact h, rfl⟩)
      have hv1 : m.visitedAt ⟨s.x, u.y⟩ := hnoadj _ hc1b hadjc1
      have hv2 : m.visitedAt ⟨u.x, s.y⟩ := hnoadj _ hc2b hadjc2
      have hadjc1u : Adjacent (⟨s.x, u.y⟩ : Position) u := by
        rcases hdx with h | h
        · exact Or.inl ⟨by show s.x + 1 = u.x; exact h, rfl⟩
        · exact Or.inr (Or.inl ⟨by show u.x + 1 = s.x; exact h, rfl⟩)
      have hadjc2u : Adjacent (⟨u.x, s.y⟩ : Position) u := by
        rcases hdy with h | h
        · exact Or.inr (Or.inr (Or.inl ⟨rfl, by show s.y + 1 = u.y; exact h⟩))
        · exact Or.inr (Or.inr (Or.inr ⟨rfl, by show u.y + 1 = s.y; exact h⟩))
      have hsneu : s ≠ u := fun h2 => hunv2 (h2 ▸ hsv)
      obtain ⟨-, hoth1⟩ := hS2 _ hc1b hv1 u hub2 hadjc1u hunv2
      have hcs1 := hoth1 s hsb (adjacent_symm hadjc1) hsneu
      obtain ⟨-, hoth2⟩ := hS2 _ hc2b hv2 u hub2 hadjc2u hunv2
      have hcs2 := hoth2 s hsb (adjacent_symm hadjc2) hsneu
      have hc1c2 : (⟨s.x, u.y⟩ : Position) ≠ ⟨u.x, s.y⟩ := by
        intro h2
        have h3 := congrArg Position.x h2
        dsimp only at h3
        rcases hdx with h4 | h4 <;> omega
      refine ⟨⟨s.x, u.y⟩, ⟨u.x, s.y⟩, ?_, ?_, hc1c2, carved_symm hcs1, carved_symm hcs2⟩
      · exact hmemP.mpr ⟨hc1b, hv1, Or.inl ⟨u, hub2, hadjc1u, hunv2⟩⟩
      · exact hmemP.mpr ⟨hc2b, hv2, Or.inl ⟨u, hub2, hadjc2u, hunv2⟩⟩
  obtain ⟨s, hsP, hmax⟩ := P.exists_max_image rank hPne
  obtain ⟨a, b, haP, hbP, hab, hca, hcb⟩ := hstep s hsP
  have hpa : par s = a := by
    rcases hpr s a hca with ⟨h1, -⟩ | ⟨-, h2⟩
    · exact h1
    · exact absurd h2 (not_lt.mpr (hmax a haP))
  have hpb : par s = b := by
    rcases hpr s b hcb with ⟨h1, -⟩ | ⟨-, h2⟩
    · exact h1
    · exact absurd h2 (not_lt.mpr (hmax b hbP))
  exact hab (hpa.symm.trans hpb)

theorem interior_forward (m : Maze) (d : Direction) (p : Position) :
    (forwardState m d).interior p ↔ m.interior p := by
  cases d <;> exact Iff.rfl

theorem inv_mkMaze {w h : Nat} {rng : Rng} {m0 : Maze}
    (hm : mkMaze w h rng = some m0) (hg : GoodRng rng) : Inv m0 := by
  obtain ⟨hww, hhh, hcur, htl, hrng, hwpos, hhpos, hlen⟩ := mkMaze_some hm
  have hwf := wf_mkMaze hm
  have hvis : ∀ p, m0.inBounds p → m0.visitedAt p → p = startPos := by
    intro p hp hv
    unfold visitedAt at hv
    rw [mkMaze_get_cell hm hp] at hv
    by_contra hne
    rw [if_neg hne] at hv
    cases hv
  refine ⟨hwf, ?_, treeInv_mkMaze hm, ⟨?_, ?_⟩, ?_, ?_, ?_⟩
  · rw [hrng]
    exact hg
  · intro t htm htc
    rw [htl, List.mem_singleton] at htm
    subst htm
    rw [hcur] at htc
    exact absurd rfl htc
  · intro t htm htc
    rw [htl, List.mem_singleton] at htm
    subst htm
    exact Or.inl rfl
  · refine Or.inl ?_
    rw [hcur, htl]
    exact List.mem_singleton.mpr rfl
  · intro v hvb hvv hvc hvt
    exfalso
    apply hvc
    rw [hvis v hvb hvv, hcur]
  · intro p hp hv
    rw [hvis p hp hv]
    exact Relation.ReflTransGen.refl

theorem inv_step {m : Maze} (hI : Inv m) : Inv m.gen_step.1 := by
  obtain ⟨hw, hg, htr, htl, hcu, hin, hre⟩ := hI
  cases hsel : selectDest m (shuffleOf m) with
  | some dir =>
    rw [gen_step_some hsel]
    show Inv (forwardState (withAdv m) dir)
    have hfree : (withAdv m).dirFree dir :=
      (dirFree_withAdv m dir).mpr (selectDest_some_free hsel)
    have hwA : Wf (withAdv m) := wf_withAdv hw
    have htgt := dirFree_target hwA.cursorIn hfree
    have htrA : TreeInv (withAdv m) := htr
    have htlA : TailOK (withAdv m) := htl
    have hcuA : CursorOK (withAdv m) := hcu
    have hinA : InactiveOK (withAdv m) := hin
    have hreA : ReachInv (withAdv m) := hre
    refine ⟨wf_forward hwA hfree, ?_, treeInv_forward hwA hfree htrA, ⟨?_, ?_⟩,
      ?_, ?_, ?_⟩
    · show GoodRng (forwardState (withAdv m) dir).rng
      rw [forwardState_rng]
      exact fun n => hg n
    · -- tail clause 1
      intro t htm htc
      rw [forwardState_tail] at htm
      rw [forwardState_cursor] at htc
      rcases List.mem_cons.mp htm with rfl | htm2
      · exact absurd rfl htc
      · by_cases htcur : t = (withAdv m).cursor
        · subst htcur
          rcases htlA.2 _ htm2 rfl with hst | hcard | hdead
          · refine Or.inl (Or.inr ⟨hst, ?_⟩)
            have := carvedNbrs_card_succ hwA hfree
            omega
          · refine Or.inl (Or.inl ?_)
            have := carvedNbrs_card_succ hwA hfree
            omega
          · exfalso
            exact htgt.2 (hdead _ htgt.1 (adjacent_target hfree))
        · rcases htlA.1 t htm2 htcur with he | hd
          · exact Or.inl (edges2_forward hwA hfree he)
          · exact Or.inr (dead_forward hwA.cellsLen hwA.cursorIn hfree hd)
    · -- tail clause 2: the just-pushed cursor
      intro t htm htc
      rw [forwardState_cursor] at htc
      subst htc
      refine Or.inr (Or.inl ?_)
      refine Finset.one_le_card.mpr ⟨(withAdv m).cursor, ?_⟩
      rw [mem_carvedNbrs]
      exact ⟨(inBounds_forward _ _ _).mpr hwA.cursorIn,
        adjacent_symm (adjacent_target hfree),
        carved_symm (carved_new hwA.cellsLen hwA.cursorIn hfree)⟩
    · -- cursor invariant: on top of the tail
      refine Or.inl ?_
      rw [forwardState_cursor, forwardState_tail]
      exact List.mem_cons_self _ _
    · -- inactive invariant
      intro v hvb hvv hvc hvt u hub hadj hunv
      rw [inBounds_forward] at hvb hub
      rw [forwardState_cursor] at hvc
      have hvtail : v ∉ (withAdv m).tail := by
        intro hmem
        exact hvt (by rw [forwardState_tail]; exact List.mem_cons_of_mem _ hmem)
      have hvvM : (withAdv m).visitedAt v := by
        rcases forward_visited_inv hwA.cellsLen hwA.cursorIn hfree hvb hvv with h | h
        · exact h
        · exact absurd h hvc
      have hunvM : ¬(withAdv m).visitedAt u :=
        fun h => hunv (forward_visited_mono hwA.cellsLen hwA.cursorIn hfree hub h)
      have hune_t : u ≠ dir.apply (withAdv m).cursor := by
        intro h2
        rw [h2] at hunv
        exact hunv (forward_visited_target hwA.cellsLen hwA.cursorIn hfree)
      by_cases hvcur : v = (withAdv m).cursor
      · subst hvcur
        rcases hcuA with hmem | hdead | hedges
        · exact absurd hmem hvtail
        · exact absurd (hdead _ htgt.1 (adjacent_target hfree)) htgt.2
        · rcases hedges with hcard2 | ⟨hstart, hcard1⟩
          · obtain ⟨a1, ha1, a2, ha2, ha12⟩ :=
              Finset.one_lt_card.mp (by omega :
                1 < ((withAdv m).carvedNbrs (withAdv m).cursor).card)
            obtain ⟨ha1b, ha1adj, ha1c⟩ := mem_carvedNbrs.mp ha1
            obtain ⟨ha2b, ha2adj, ha2c⟩ := mem_carvedNbrs.mp ha2
            have ha1v : (withAdv m).visitedAt a1 := (hwA.carvedVis _ _ ha1c).2
            have ha2v : (withAdv m).visitedAt a2 := (hwA.carvedVis _ _ ha2c).2
            obtain ⟨du, hdu⟩ := adj_apply hadj
            obtain ⟨d1, hd1⟩ := adj_apply ha1adj
            obtain ⟨d2, hd2⟩ := adj_apply ha2adj
            have hua1 : u ≠ a1 := fun h2 => hunvM (h2 ▸ ha1v)
            have hua2 : u ≠ a2 := fun h2 => hunvM (h2 ▸ ha2v)
            have ha1t : a1 ≠ dir.apply (withAdv m).cursor :=
              fun h2 => htgt.2 (h2 ▸ ha1v)
            have ha2t : a2 ≠ dir.apply (withAdv m).cursor :=
              fun h2 => htgt.2 (h2 ▸ ha2v)
            have hdu1 : du ≠ d1 := fun h2 => hua1 (by rw [hdu, hd1, h2])
            have hdu2 : du ≠ d2 := fun h2 => hua2 (by rw [hdu, hd2, h2])
            have hdut : du ≠ dir := fun h2 => hune_t (by rw [hdu, h2])
            have hd12 : d1 ≠ d2 := fun h2 => ha12 (by rw [hd1, hd2, h2])
            have hd1t : d1 ≠ dir := fun h2 => ha1t (by rw [hd1, h2])
            have hd2t : d2 ≠ dir := fun h2 => ha2t (by rw [hd2, h2])
            have hcover := dir_cover du d1 d2 dir hdu1 hdu2 hdut hd12 hd1t hd2t
            have hint : (withAdv m).interior (withAdv m).cursor := by
              apply interior_of_four
              intro dd
              rcases hcover dd with rfl | rfl | rfl | rfl
              · exact ⟨hdu ▸ hub, hdu ▸ hadj⟩
              · exact ⟨hd1 ▸ ha1b, hd1 ▸ ha1adj⟩
              · exact ⟨hd2 ▸ ha2b, hd2 ▸ ha2adj⟩
              · exact ⟨htgt.1, adjacent_target hfree⟩
            refine ⟨(interior_forward _ _ _).mpr hint, ?_⟩
            intro q hqb hqadj hqne
            obtain ⟨dq, hdq⟩ := adj_apply hqadj
            rcases hcover dq with h2 | h2 | h2 | h2
            · exfalso
              apply hqne
              rw [hdq, h2, ← hdu]
            · rw [hdq, h2, ← hd1]
              exact carved_mono hwA.cellsLen hwA.cursorIn hfree ha1c
            · rw [hdq, h2, ← hd2]
              exact carved_mono hwA.cellsLen hwA.cursorIn hfree ha2c
            · rw [hdq, h2]
              exact carved_new hwA.cellsLen hwA.cursorIn hfree
          · exfalso
            obtain ⟨a1, ha1⟩ := Finset.card_pos.mp (by omega :
              0 < ((withAdv m).carvedNbrs (withAdv m).cursor).card)
            obtain ⟨ha1b, ha1adj, ha1c⟩ := mem_carvedNbrs.mp ha1
            have ha1v : (withAdv m).visitedAt a1 := (hwA.carvedVis _ _ ha1c).2
            have hua1 : u ≠ a1 := fun h2 => hunvM (h2 ▸ ha1v)
            have ha1t : a1 ≠ dir.apply (withAdv m).cursor :=
              fun h2 => htgt.2 (h2 ▸ ha1v)
            have h1 : Adjacent startPos u := by
              rw [← hstart]
              exact hadj
            have h2 : Adjacent startPos a1 := by
              rw [← hstart]
              exact ha1adj
            have h3adj : Adjacent startPos (dir.apply (withAdv m).cursor) := by
              rw [← hstart]
              exact adjacent_target hfree
            have h1 := adj_start h1
            have h2 := adj_start h2
            have h3 := adj_start h3adj
            rcases h1 with rfl | rfl
            · rcases h2 with rfl | rfl
              · exact hua1 rfl
              · rcases h3 with h3 | h3
                · exact hune_t h3.symm
                · exact ha1t h3.symm
            · rcases h2 with rfl | rfl
              · rcases h3 with h3 | h3
                · exact ha1t h3.symm
                · exact hune_t h3.symm
              · exact hua1 rfl
      · obtain ⟨hint, hoth⟩ := hinA v hvb hvvM hvcur hvtail u hub hadj hunvM
        refine ⟨(interior_forward _ _ _).mpr hint, ?_⟩
        intro q hqb hqadj hqne
        rw [inBounds_forward] at hqb
        exact carved_mono hwA.cellsLen hwA.cursorIn hfree (hoth q hqb hqadj hqne)
    · -- reach invariant
      intro p hp hv
      rw [inBounds_forward] at hp
      rcases forward_visited_inv hwA.cellsLen hwA.cursorIn hfree hp hv with h | h
      · exact reachable_forward hwA hfree (hreA p hp h)
      · rw [h]
        exact (reachable_forward hwA hfree
          (hreA _ hwA.cursorIn hwA.cursorVis)).tail
          (carved_new hwA.cellsLen hwA.cursorIn hfree)
  | none =>
    cases htl2 : m.tail with
    | nil =>
      rw [gen_step_none_nil hsel htl2]
      exact ⟨wf_withAdv hw, fun n => hg n, htr, htl, hcu, hin, hre⟩
    | cons p rest =>
      rw [gen_step_none_cons hsel htl2]
      show Inv { withAdv m with cursor := p, tail := rest }
      have hdead : m.Dead m.cursor := dead_of_none hg hsel
      have hmem : p ∈ m.tail := by
        rw [htl2]
        exact List.mem_cons_self p rest
      have hsub : ∀ q ∈ rest, q ∈ m.tail := by
        intro q hq
        rw [htl2]
        exact List.mem_cons_of_mem p hq
      refine ⟨⟨hw.wpos, hw.hpos, hw.cellsLen, hw.tailIn p hmem,
        fun q hq => hw.tailIn q (hsub q hq), hw.tailVis p hmem,
        fun q hq => hw.tailVis q (hsub q hq), hw.rootVis, hw.carvedVis⟩,
        fun n => hg n, htr, ⟨?_, ?_⟩, ?_, ?_, ?_⟩
      · intro t htm htc
        by_cases htcur : t = m.cursor
        · refine Or.inr ?_
          show m.Dead t
          rw [htcur]
          exact hdead
        · exact htl.1 t (hsub t htm) htcur
      · intro t htm htc
        by_cases htcur : t = m.cursor
        · refine Or.inr (Or.inr ?_)
          show m.Dead t
          rw [htcur]
          exact hdead
        · rcases htl.1 t (hsub t htm) htcur with he | hd
          · rcases he with h2 | ⟨hs, h1⟩
            · refine Or.inr (Or.inl ?_)
              show 1 ≤ (m.carvedNbrs t).card
              omega
            · exact Or.inl hs
          · exact Or.inr (Or.inr hd)
      · by_cases hpc : p = m.cursor
        · refine Or.inr (Or.inl ?_)
          show m.Dead p
          rw [hpc]
          exact hdead
        · rcases htl.1 p hmem hpc with he | hd
          · exact Or.inr (Or.inr he)
          · exact Or.inr (Or.inl hd)
      · intro v hvb hvv hvc hvt u hub hadj hunv
        by_cases hvcur : v = m.cursor
        · exfalso
          apply hunv
          show m.visitedAt u
          exact hdead u hub (hvcur ▸ hadj)
        · have hvtm : v ∉ m.tail := by
            rw [htl2]
            intro hmm
            rcases List.mem_cons.mp hmm with h2 | h2
            · exact hvc h2
            · exact hvt h2
          exact hin v hvb hvv hvcur hvtm u hub hadj hunv
      · exact hre

theorem inv_stepIter {m : Maze} (hI : Inv m) (k : Nat) : Inv (stepIter m k) := by
  induction k with
  | zero => exact hI
  | succ j ih => exact inv_step ih

theorem stepIter_shift (m : Maze) (k : Nat) :
    stepIter m.gen_step.1 k = stepIter m (k + 1) := by
  induction k with
  | zero => rfl
  | succ j ih =>
    show (stepIter m.gen_step.1 j).gen_step.1 = _
    rw [ih]
    rfl

theorem generateN_true_src {m : Maze} {n : Nat} (h : (generateN m n).2 = true) :
    ∃ k, (stepIter m k).gen_step.2 = true ∧
      (generateN m n).1 = (stepIter m k).gen_step.1 := by
  induction n generalizing m with
  | zero => simp [generateN] at h
  | succ j ih =>
    rw [generateN_succ] at h ⊢
    by_cases hd : m.gen_step.2 = true
    · rw [if_pos hd] at h ⊢
      exact ⟨0, hd, rfl⟩
    · rw [if_neg hd] at h ⊢
      obtain ⟨k, h1, h2⟩ := ih h
      refine ⟨k + 1, ?_, ?_⟩
      · rw [← stepIter_shift]
        exact h1
      · rw [h2, ← stepIter_shift]

theorem allVisited_of_inv_true {m : Maze} (hI : Inv m) (htrue : m.gen_step.2 = true) :
    m.allVisited := by
  obtain ⟨htail, hnone, -⟩ := gen_step_true_elim htrue
  have hdead : m.Dead m.cursor := dead_of_none hI.good hnone
  by_contra hnv
  unfold allVisited at hnv
  push_neg at hnv
  obtain ⟨u0, hu0b, hu0v⟩ := hnv
  refine no_orphan hI.wf ?_ hI.tree hu0b hu0v
  intro v hvb hvv u hub hadj hunv
  have hvc : v ≠ m.cursor := by
    rintro rfl
    exact hunv (hdead u hub hadj)
  have hvt : v ∉ m.tail := by
    rw [htail]
    exact List.not_mem_nil v
  exact hI.inact v hvb hvv hvc hvt u hub hadj hunv

theorem inv_generateN {m : Maze} (hI : Inv m) (n : Nat) : Inv (generateN m n).1 := by
  induction n generalizing m with
  | zero => exact hI
  | succ k ih =>
    rw [generateN_succ]
    split_ifs
    · exact inv_step hI
    · exact ih (inv_step hI)

theorem generateN_allVisited {m : Maze} (hI : Inv m) {n : Nat}
    (h : (generateN m n).2 = true) : (generateN m n).1.allVisited := by
  obtain ⟨k, htr2, heq⟩ := generateN_true_src h
  have hIk := inv_stepIter hI k
  have hav := allVisited_of_inv_true hIk htr2
  rw [heq, (gen_step_true_elim htr2).2.2]
  exact hav

theorem visitedCount_of_allVisited {m : Maze} (h : m.allVisited) :
    m.visitedCount = m.width * m.height := by
  unfold visitedCount
  rw [Finset.filter_true_of_mem fun p hp => h p (mem_allPositions.mp hp)]
  exact card_allPositions m

theorem graph_reachable_root {m : Maze} (hw : Wf m) :
    ∀ q, m.Reachable startPos q → ∀ hx : q.x < m.width, ∀ hy : q.y < m.height,
    (mazeGraph m).Reachable ⟨⟨0, hw.wpos⟩, ⟨0, hw.hpos⟩⟩ ⟨⟨q.x, hx⟩, ⟨q.y, hy⟩⟩ := by
  intro q h
  induction h with
  | refl =>
    intro hx hy
    exact SimpleGraph.Reachable.refl _
  | tail hab hbc ih =>
    intro hx hy
    have hbB := hbc.1
    have ihb := ih hbB.1 hbB.2
    exact ihb.trans (SimpleGraph.Adj.reachable hbc)

theorem connected_of_reach {m : Maze} (hw : Wf m) (hre : ReachInv m)
    (hav : m.allVisited) : (mazeGraph m).Connected := by
  have hroot : ∀ a : Fin m.width × Fin m.height,
      (mazeGraph m).Reachable ⟨⟨0, hw.wpos⟩, ⟨0, hw.hpos⟩⟩ a := by
    intro a
    have hab : m.inBounds ⟨a.1, a.2⟩ := ⟨a.1.2, a.2.2⟩
    have hr := hre ⟨a.1, a.2⟩ hab (hav _ hab)
    exact graph_reachable_root hw ⟨a.1, a.2⟩ hr a.1.2 a.2.2
  have hne : Nonempty (Fin m.width × Fin m.height) := ⟨⟨⟨0, hw.wpos⟩, ⟨0, hw.hpos⟩⟩⟩
  exact SimpleGraph.Connected.mk fun a b => (hroot a).symm.trans (hroot b)

theorem treeInv_acyclic {m : Maze} (ht : TreeInv m) : (mazeGraph m).IsAcyclic := by
  obtain ⟨par, rank, hpr⟩ := ht
  intro v c hc
  obtain ⟨x, hxs, hmax⟩ := (c.support.toFinset).exists_max_image
    (fun a => rank ⟨a.1, a.2⟩) ⟨v, List.mem_toFinset.mpr c.start_mem_support⟩
  rw [List.mem_toFinset] at hxs
  have hdc : (c.rotate hxs).IsCycle := hc.rotate hxs
  have hsup : ∀ y ∈ (c.rotate hxs).support, rank ⟨y.1, y.2⟩ ≤ rank ⟨x.1, x.2⟩ := by
    intro y hy
    rw [(c.rotate hxs).support_eq_cons] at hy
    rcases List.mem_cons.mp hy with rfl | hy2
    · exact le_refl _
    · refine hmax y (List.mem_toFinset.mpr ?_)
      have hrot := SimpleGraph.Walk.support_rotate c hxs
      have hmem : y ∈ c.support.tail := hrot.perm.mem_iff.mp hy2
      rw [c.support_eq_cons]
      exact List.mem_cons_of_mem _ hmem
  cases hdr : c.rotate hxs with
  | nil =>
    rw [hdr] at hdc
    exact hdc.ne_nil rfl
  | cons hadj p =>
    rename_i y
    rw [hdr] at hdc hsup
    have hy : y ∈ (SimpleGraph.Walk.cons hadj p).support := by
      rw [SimpleGraph.Walk.support_cons]
      exact List.mem_cons_of_mem _ p.start_mem_support
    have hcxy : m.carvedBetween ⟨x.1, x.2⟩ ⟨y.1, y.2⟩ := hadj
    have hpar1 : par ⟨x.1, x.2⟩ = ⟨y.1, y.2⟩ := by
      rcases hpr _ _ hcxy with ⟨h1, -⟩ | ⟨-, h2⟩
      · exact h1
      · exact absurd h2 (not_lt.mpr (hsup y hy))
    cases hrev : (SimpleGraph.Walk.cons hadj p).reverse with
    | nil =>
      have hlen := congrArg SimpleGraph.Walk.length hrev
      rw [SimpleGraph.Walk.length_reverse, SimpleGraph.Walk.length_cons] at hlen
      have h3 := hdc.three_le_length
      rw [SimpleGraph.Walk.length_cons] at h3
      rw [show (SimpleGraph.Walk.nil :
        (mazeGraph m).Walk x x).length = 0 from rfl] at hlen
      omega
    | cons hadj2 p2 =>
      rename_i z
      have hz : z ∈ (SimpleGraph.Walk.cons hadj p).support := by
        have hzr : z ∈ (SimpleGraph.Walk.cons hadj p).reverse.support := by
          rw [hrev, SimpleGraph.Walk.support_cons]
          exact List.mem_cons_of_mem _ p2.start_mem_support
        rw [SimpleGraph.Walk.support_reverse, List.mem_reverse] at hzr
        exact hzr
      have hcxz : m.carvedBetween ⟨x.1, x.2⟩ ⟨z.1, z.2⟩ := hadj2
      have hpar2 : par ⟨x.1, x.2⟩ = ⟨z.1, z.2⟩ := by
        rcases hpr _ _ hcxz with ⟨h1, -⟩ | ⟨-, h2⟩
        · exact h1
        · exact absurd h2 (not_lt.mpr (hsup z hz))
      have hyz : y = z := by
        have hpos : (⟨(y.1 : Nat), (y.2 : Nat)⟩ : Position) = ⟨z.1, z.2⟩ :=
          hpar1.symm.trans hpar2
        have hx1 := congrArg Position.x hpos
        have hy1 := congrArg Position.y hpos
        dsimp only at hx1 hy1
        refine Prod.ext ?_ ?_
        · exact Fin.ext hx1
        · exact Fin.ext hy1
      subst hyz
      have hedges : ((SimpleGraph.Walk.cons hadj p).edges).reverse
          = (SimpleGraph.Walk.cons hadj2 p2).edges := by
        rw [← SimpleGraph.Walk.edges_reverse, hrev]
      rw [SimpleGraph.Walk.edges_cons, SimpleGraph.Walk.edges_cons] at hedges
      have hnodup := hdc.edges_nodup
      rw [SimpleGraph.Walk.edges_cons] at hnodup
      have hlen3 := hdc.three_le_length
      rw [List.reverse_cons] at hedges
      cases hpe : p.edges.reverse with
      | nil =>
        have hpnil : p.edges = [] := by
          have h2 := congrArg List.reverse hpe
          rw [List.reverse_reverse] at h2
          simpa using h2
        have hplen : p.edges.length = 0 := by
          rw [hpnil]
          rfl
        rw [SimpleGraph.Walk.length_edges] at hplen
        rw [SimpleGraph.Walk.length_cons, hplen] at hlen3
        omega
      | cons e l2 =>
        rw [hpe, List.cons_append, List.cons.injEq] at hedges
        have hsmem := (List.nodup_cons.mp hnodup).1
        apply hsmem
        rw [← List.mem_reverse, hpe, ← hedges.1]
        exact List.mem_cons_self _ _

theorem reachSet_sound {m : Maze} {q : Position} (n : Nat)
    (hq : q ∈ reachSet m n) : m.Reachable startPos q := by
  induction n generalizing q with
  | zero =>
    rw [reachSet, Finset.mem_singleton] at hq
    subst hq
    exact Relation.ReflTransGen.refl
  | succ k ih =>
    rw [reachSet, reachStep] at hq
    rcases Finset.mem_union.mp hq with h | h
    · exact ih h
    · obtain ⟨-, p, hp, hpq⟩ := Finset.mem_filter.mp h
      exact (ih hp).tail hpq

theorem stepIter_width (m : Maze) (k : Nat) : (stepIter m k).width = m.width := by
  induction k with
  | zero => rfl
  | succ j ih =>
    show (stepIter m j).gen_step.1.width = _
    rw [gen_step_width, ih]

theorem stepIter_height (m : Maze) (k : Nat) : (stepIter m k).height = m.height := by
  induction k with
  | zero => rfl
  | succ j ih =>
    show (stepIter m j).gen_step.1.height = _
    rw [gen_step_height, ih]

theorem countOK_stepIter {m : Maze} (hw : Wf m) (hco : CountOK m) (k : Nat) :
    CountOK (stepIter m k) := by
  induction k with
  | zero => exact hco
  | succ j ih => exact countOK_step (wf_stepIter hw j) ih

/-!
The theorems for the spec's claims.
-/

/-- C1: for every maze built by the constructors (so width ≥ 1 and
height ≥ 1 — the constructor panics otherwise), under a fair shuffle
(`GoodRng`: every shuffle consumed is a permutation of the four-direction
candidate array), once a `gen_step` call has returned `true`, every cell is
visited, exactly width·height − 1 wall flags are cleared (counting each
`right`/`bottom` clear once), and the graph formed by the cleared walls is
connected and acyclic — a perfect maze. -/
theorem c1_spanning_tree {w h : Nat} {rng : Rng} {m0 : Maze}
    (hg : GoodRng rng) (hm : mkMaze w h rng = some m0) {k : Nat}
    (htrue : (stepIter m0 k).gen_step.2 = true) :
    ((stepIter m0 k).gen_step.1).allVisited ∧
      clearedCount ((stepIter m0 k).gen_step.1) = w * h - 1 ∧
      (mazeGraph ((stepIter m0 k).gen_step.1)).Connected ∧
      (mazeGraph ((stepIter m0 k).gen_step.1)).IsAcyclic := by
  have hI0 := inv_mkMaze hm hg
  have hIk := inv_stepIter hI0 k
  have hIf : Inv ((stepIter m0 k).gen_step.1) := inv_step hIk
  have havPre := allVisited_of_inv_true hIk htrue
  have hstate := (gen_step_true_elim htrue).2.2
  have hav : ((stepIter m0 k).gen_step.1).allVisited := by
    rw [hstate]
    exact havPre
  have hco : CountOK ((stepIter m0 k).gen_step.1) :=
    countOK_step hIk.wf (countOK_stepIter hI0.wf (countOK_mkMaze hm) k)
  have hvc := visitedCount_of_allVisited hav
  have hwidth : ((stepIter m0 k).gen_step.1).width = w := by
    rw [gen_step_width, stepIter_width, (mkMaze_some hm).1]
  have hheight : ((stepIter m0 k).gen_step.1).height = h := by
    rw [gen_step_height, stepIter_height, (mkMaze_some hm).2.1]
  refine ⟨hav, ?_, connected_of_reach hIf.wf hIf.reach hav,
    treeInv_acyclic hIf.tree⟩
  unfold CountOK at hco
  rw [hwidth, hheight] at hvc
  omega

/-- C1, witness: the 1×1 seeded maze completes on its second step and the
final state is fully visited. -/
theorem c1_spanning_tree_witness :
    ((stepIter (⟨1, 1, ⟨0, 0⟩, [⟨0, 0⟩], [⟨true, true, true⟩],
      ⟨seedStream 0, 0⟩⟩ : Maze) 1).gen_step.1).allVisited :=
  (c1_spanning_tree (goodRng_seedStream 0 0)
    (show mkMaze 1 1 ⟨seedStream 0, 0⟩ = some ⟨1, 1, ⟨0, 0⟩, [⟨0, 0⟩],
      [⟨true, true, true⟩], ⟨seedStream 0, 0⟩⟩ from rfl)
    (show ((stepIter (⟨1, 1, ⟨0, 0⟩, [⟨0, 0⟩], [⟨true, true, true⟩],
      ⟨seedStream 0, 0⟩⟩ : Maze) 1).gen_step.2 = true) from rfl)).1

/-- C2: every seeded maze (width ≥ 1, height ≥ 1 follow from construction)
finishes generation within 2·width·height step iterations — a constant
multiple of width·height — and `generate(None)`, which runs up to
`usize::MAX` iterations, therefore returns `true` whenever that bound fits
the target's `usize`. -/
theorem c2_terminates {w h seed : Nat} {m0 : Maze} (hw1 : 1 ≤ w) (hh1 : 1 ≤ h)
    (hm : from_seed w h seed = some m0) :
    (generateN m0 (2 * (w * h))).2 = true ∧
      (∀ n, 2 * (w * h) ≤ n → (generateN m0 n).2 = true) ∧
      (2 * (w * h) ≤ usizeMax → (m0.generate none).2 = true) := by
  have hm2 : mkMaze w h ⟨seedStream seed, 0⟩ = some m0 := hm
  have hwf := wf_mkMaze hm2
  obtain ⟨hww, hhh, hcur, htl, -, -, -, -⟩ := mkMaze_some hm2
  have hv1 : 0 < m0.visitedCount := by
    refine Finset.card_pos.mpr ⟨startPos, Finset.mem_filter.mpr
      ⟨mem_allPositions.mpr ⟨hwf.wpos, hwf.hpos⟩, hwf.rootVis⟩⟩
  have hwh1 : 0 < w * h := Nat.mul_pos hw1 hh1
  have hmain : (generateN m0 (2 * (w * h))).2 = true := by
    refine generateN_complete hwf ?_
    rw [hww, hhh, htl]
    simp only [List.length_singleton]
    omega
  refine ⟨hmain, fun n hn => generateN_mono hn hmain, fun hle => ?_⟩
  rw [generate_none_eq]
  exact generateN_mono hle hmain

/-- C2, witness: the 1×1 seeded maze finishes within 2·1·1 steps. -/
theorem c2_terminates_witness :
    (generateN (⟨1, 1, ⟨0, 0⟩, [⟨0, 0⟩], [⟨true, true, true⟩],
      ⟨seedStream 0, 0⟩⟩ : Maze) (2 * (1 * 1))).2 = true :=
  (c2_terminates (le_refl 1) (le_refl 1)
    (show from_seed 1 1 0 = some ⟨1, 1, ⟨0, 0⟩, [⟨0, 0⟩],
      [⟨true, true, true⟩], ⟨seedStream 0, 0⟩⟩ from rfl)).1

/-- C3 (amended): the 5×5 maze seeded with 0 needs exactly 50 step
invocations, not at most 49: `generate(Some(49))` returns `false` and
`generate(Some(50))` returns `true`.  The rest of the scenario holds as
stated: `generate(None)` returns `true`, all 25 cells are visited, exactly
24 walls are cleared, and every cell is reachable from `(0, 0)` through
cleared walls. -/
theorem c3_five_by_five {m0 : Maze} (hm : from_seed 5 5 0 = some m0) :
    (m0.generate (some 50)).2 = true ∧
      (m0.generate (some 49)).2 = false ∧
      (m0.generate none).2 = true ∧
      visitedCount (m0.generate (some 50)).1 = 25 ∧
      clearedCount (m0.generate (some 50)).1 = 24 ∧
      (m0.generate (some 50)).1.allVisited ∧
      ∀ p, (m0.generate (some 50)).1.inBounds p →
        Reachable (m0.generate (some 50)).1 startPos p := by
  have hlit : from_seed 5 5 0 = some ⟨5, 5, ⟨0, 0⟩, [⟨0, 0⟩],
      (List.replicate 25 (⟨false, true, true⟩ : MazeCell)).set 0 ⟨true, true, true⟩,
      ⟨seedStream 0, 0⟩⟩ := rfl
  rw [hlit] at hm
  cases hm
  have h50 : (generateN (⟨5, 5, ⟨0, 0⟩, [⟨0, 0⟩],
      (List.replicate 25 (⟨false, true, true⟩ : MazeCell)).set 0 ⟨true, true, true⟩,
      ⟨seedStream 0, 0⟩⟩ : Maze) 50).2 = true := by rfl
  have hpair : generateN (⟨5, 5, ⟨0, 0⟩, [⟨0, 0⟩],
      (List.replicate 25 (⟨false, true, true⟩ : MazeCell)).set 0 ⟨true, true, true⟩,
      ⟨seedStream 0, 0⟩⟩ : Maze) 50 = ((generateN (⟨5, 5, ⟨0, 0⟩, [⟨0, 0⟩],
      (List.replicate 25 (⟨false, true, true⟩ : MazeCell)).set 0 ⟨true, true, true⟩,
      ⟨seedStream 0, 0⟩⟩ : Maze) 50).1, true) := by
    exact Prod.ext rfl h50
  refine ⟨h50, by rfl, ?_, by decide, by decide, by decide, ?_⟩
  · rw [generate_none_eq, generateN_mono_eq (by norm_num [usizeMax]) hpair]
  · intro p hp
    have hm2 : mkMaze 5 5 ⟨seedStream 0, 0⟩ = some ⟨5, 5, ⟨0, 0⟩, [⟨0, 0⟩],
        (List.replicate 25 (⟨false, true, true⟩ : MazeCell)).set 0 ⟨true, true, true⟩,
        ⟨seedStream 0, 0⟩⟩ := rfl
    have hI := inv_mkMaze hm2 (goodRng_seedStream 0 0)
    have hIf := inv_generateN hI 50
    have hav : (generateN (⟨5, 5, ⟨0, 0⟩, [⟨0, 0⟩],
        (List.replicate 25 (⟨false, true, true⟩ : MazeCell)).set 0 ⟨true, true, true⟩,
        ⟨seedStream 0, 0⟩⟩ : Maze) 50).1.allVisited := by decide
    exact hIf.reach p hp (hav p hp)

/-- C3, witness: the scenario's hypothesis is satisfied by the actual
construction, and `generate(Some(50))` completes. -/
theorem c3_five_by_five_witness :
    (((⟨5, 5, ⟨0, 0⟩, [⟨0, 0⟩],
      (List.replicate 25 (⟨false, true, true⟩ : MazeCell)).set 0 ⟨true, true, true⟩,
      ⟨seedStream 0, 0⟩⟩ : Maze)).generate (some 50)).2 = true :=
  (c3_five_by_five rfl).1

/-- C3, counterexample to the claim as stated: for the 5×5 maze seeded
with 0, `generate(Some(49))` returns `false` — 49 step invocations do not
complete generation. -/
theorem c3_counterexample :
    from_seed 5 5 0 = some ⟨5, 5, ⟨0, 0⟩, [⟨0, 0⟩],
        (List.replicate 25 (⟨false, true, true⟩ : MazeCell)).set 0 ⟨true, true, true⟩,
        ⟨seedStream 0, 0⟩⟩ ∧
      (((⟨5, 5, ⟨0, 0⟩, [⟨0, 0⟩],
        (List.replicate 25 (⟨false, true, true⟩ : MazeCell)).set 0 ⟨true, true, true⟩,
        ⟨seedStream 0, 0⟩⟩ : Maze)).generate (some 49)).2 = false :=
  ⟨rfl, rfl⟩

/-- C4 (amended): `get_cell` only panics when the flat offset
`x + y·width` falls outside the cell store; a coordinate with `x ≥ width`
whose flat offset is still in range silently aliases another cell instead
of failing. -/
theorem c4_get_cell_offset_only {m : Maze} (hw : Wf m) (x y : Nat) :
    m.get_cell? x y = none ↔ m.width * m.height ≤ m.get_cell_offset x y := by
  unfold get_cell?
  rw [List.get?_eq_getElem?, List.getElem?_eq_none_iff, hw.cellsLen]

/-- C4, witness: on the 1×1 seeded maze, reading `(1, 0)` panics, matching
the offset criterion. -/
theorem c4_get_cell_offset_only_witness :
    (⟨1, 1, ⟨0, 0⟩, [⟨0, 0⟩], [⟨true, true, true⟩],
        ⟨seedStream 0, 0⟩⟩ : Maze).get_cell? 1 0 = none ↔
      1 * 1 ≤ (⟨1, 1, ⟨0, 0⟩, [⟨0, 0⟩], [⟨true, true, true⟩],
        ⟨seedStream 0, 0⟩⟩ : Maze).get_cell_offset 1 0 :=
  c4_get_cell_offset_only
    (wf_mkMaze (show mkMaze 1 1 ⟨seedStream 0, 0⟩ = some ⟨1, 1, ⟨0, 0⟩, [⟨0, 0⟩],
      [⟨true, true, true⟩], ⟨seedStream 0, 0⟩⟩ from rfl)) 1 0

/-- C4, counterexample to the claim as stated: on a freshly constructed
2×2 maze, `get_cell(2, 0)` has `x ≥ width` yet silently returns the
contents of cell `(0, 1)` instead of failing. -/
theorem c4_counterexample :
    from_seed 2 2 0 = some ⟨2, 2, ⟨0, 0⟩, [⟨0, 0⟩],
        [⟨true, true, true⟩, ⟨false, true, true⟩, ⟨false, true, true⟩,
          ⟨false, true, true⟩], ⟨seedStream 0, 0⟩⟩ ∧
      2 ≥ (⟨2, 2, ⟨0, 0⟩, [⟨0, 0⟩],
        [⟨true, true, true⟩, ⟨false, true, true⟩, ⟨false, true, true⟩,
          ⟨false, true, true⟩], ⟨seedStream 0, 0⟩⟩ : Maze).width ∧
      (⟨2, 2, ⟨0, 0⟩, [⟨0, 0⟩],
        [⟨true, true, true⟩, ⟨false, true, true⟩, ⟨false, true, true⟩,
          ⟨false, true, true⟩], ⟨seedStream 0, 0⟩⟩ : Maze).get_cell? 2 0 =
        some ⟨false, true, true⟩ ∧
      (⟨2, 2, ⟨0, 0⟩, [⟨0, 0⟩],
        [⟨true, true, true⟩, ⟨false, true, true⟩, ⟨false, true, true⟩,
          ⟨false, true, true⟩], ⟨seedStream 0, 0⟩⟩ : Maze).get_cell? 2 0 =
        (⟨2, 2, ⟨0, 0⟩, [⟨0, 0⟩],
        [⟨true, true, true⟩, ⟨false, true, true⟩, ⟨false, true, true⟩,
          ⟨false, true, true⟩], ⟨seedStream 0, 0⟩⟩ : Maze).get_cell? 0 1 :=
  ⟨rfl, le_refl 2, rfl, rfl⟩

/-- C5: in every state reachable from either constructor by any sequence
of `step`/`generate` calls, the rightmost column's `right` walls and the
bottommost row's `bottom` walls are all still present. -/
theorem c5_boundary (w h : Nat) (entropy : Rng) (seed : Nat) (calls : List Call) :
    (∀ m0, new w h entropy = some m0 → BoundaryOK (runCalls m0 calls)) ∧
      (∀ m0, from_seed w h seed = some m0 → BoundaryOK (runCalls m0 calls)) := by
  constructor
  · intro m0 hm
    have hm2 : mkMaze w h entropy = some m0 := hm
    exact (wf_boundary_runCalls (wf_mkMaze hm2) (boundaryOK_mkMaze hm2) calls).2
  · intro m0 hm
    have hm2 : mkMaze w h ⟨seedStream seed, 0⟩ = some m0 := hm
    exact (wf_boundary_runCalls (wf_mkMaze hm2) (boundaryOK_mkMaze hm2) calls).2

/-- C5, witness: the boundary invariant after a full `generate(None)` on
the seeded 2×1 maze. -/
theorem c5_boundary_witness :
    BoundaryOK (runCalls (⟨2, 1, ⟨0, 0⟩, [⟨0, 0⟩],
        [⟨true, true, true⟩, ⟨false, true, true⟩], ⟨seedStream 0, 0⟩⟩ : Maze)
      [Call.generateCall none]) :=
  (c5_boundary 2 1 ⟨seedStream 0, 0⟩ 0 [Call.generateCall none]).2
    _ (from_seed_2_1 0)

/-- C6: two mazes built by `from_seed` from the same width, height and
seed, then driven by identical sequences of `step`/`generate` calls, end
with identical cell stores — the whole computation is a deterministic
function of `(width, height, seed)`. -/
theorem c6_determinism (w h seed : Nat) (calls : List Call) :
    ∀ m1 m2, from_seed w h seed = some m1 → from_seed w h seed = some m2 →
      (runCalls m1 calls).cells = (runCalls m2 calls).cells := by
  intro m1 m2 h1 h2
  rw [h1] at h2
  cases h2
  rfl

/-- C6, witness: determinism instantiated on the 1×1 seeded maze. -/
theorem c6_determinism_witness :
    (runCalls (⟨1, 1, ⟨0, 0⟩, [⟨0, 0⟩], [⟨true, true, true⟩],
        ⟨seedStream 0, 0⟩⟩ : Maze) [Call.stepCall]).cells =
      (runCalls (⟨1, 1, ⟨0, 0⟩, [⟨0, 0⟩], [⟨true, true, true⟩],
        ⟨seedStream 0, 0⟩⟩ : Maze) [Call.stepCall]).cells :=
  c6_determinism 1 1 0 [Call.stepCall] _ _ (from_seed_1_1 0) (from_seed_1_1 0)

/-- C7: under a fair shuffle, once a `gen_step` call has returned `true`,
every later `gen_step` call returns `true` again and leaves the cell
store, the cursor and the tail unchanged (only the PRNG keeps advancing). -/
theorem c7_idempotent {m : Maze} (hg : GoodRng m.rng)
    (ht : m.gen_step.2 = true) (k : Nat) :
    (stepIter m.gen_step.1 k).gen_step.2 = true ∧
      (stepIter m.gen_step.1 k).cells = m.cells ∧
      (stepIter m.gen_step.1 k).cursor = m.cursor ∧
      (stepIter m.gen_step.1 k).tail = m.tail := by
  obtain ⟨htail, hnone, hstate⟩ := gen_step_true_elim ht
  have hnf := (selectDest_none_iff_good hg).mp hnone
  rw [hstate]
  have hnfA : ∀ d, ¬(withAdv m).dirFree d :=
    fun d h2 => hnf d ((dirFree_withAdv m d).mp h2)
  have htailA : (withAdv m).tail = [] := htail
  obtain ⟨hww, hhh, hc, htl0, hcl, hstep⟩ := dead_iter hnfA htailA k
  refine ⟨?_, hcl, hc, ?_⟩
  · rw [hstep]
  · rw [htl0, htail]

/-- C7, witness: the completed 1×1 maze stays fixed over three further
steps. -/
theorem c7_idempotent_witness :
    (stepIter (⟨1, 1, ⟨0, 0⟩, [], [⟨true, true, true⟩],
        ⟨seedStream 0, 1⟩⟩ : Maze).gen_step.1 3).gen_step.2 = true ∧
      (stepIter (⟨1, 1, ⟨0, 0⟩, [], [⟨true, true, true⟩],
        ⟨seedStream 0, 1⟩⟩ : Maze).gen_step.1 3).cells =
        [(⟨true, true, true⟩ : MazeCell)] ∧
      (stepIter (⟨1, 1, ⟨0, 0⟩, [], [⟨true, true, true⟩],
        ⟨seedStream 0, 1⟩⟩ : Maze).gen_step.1 3).cursor = ⟨0, 0⟩ ∧
      (stepIter (⟨1, 1, ⟨0, 0⟩, [], [⟨true, true, true⟩],
        ⟨seedStream 0, 1⟩⟩ : Maze).gen_step.1 3).tail = [] :=
  c7_idempotent (goodRng_seedStream 0 1) (by rfl) 3

/-- C8: on a 2×1 maze, for every seed, the first step is forced rightward;
generation completes after exactly 4 steps (`generateN 4` is `true`,
`generateN 3` is not), `generate(None)` returns `true`, and afterwards
cell `(0,0)` is visited with its right wall cleared while cell `(1,0)` is
visited with its right wall intact. -/
theorem c8_scenario_2x1 {seed : Nat} {m0 : Maze}
    (hm : from_seed 2 1 seed = some m0) :
    m0.gen_step.1.cursor = ⟨1, 0⟩ ∧
      (generateN m0 4).2 = true ∧
      (generateN m0 3).2 = false ∧
      (m0.generate none).2 = true ∧
      ((m0.generate none).1.get_cell 0 0).right = false ∧
      ((m0.generate none).1.get_cell 0 0).visited = true ∧
      ((m0.generate none).1.get_cell 1 0).right = true ∧
      ((m0.generate none).1.get_cell 1 0).visited = true := by
  rw [from_seed_2_1 seed] at hm
  cases hm
  have hgen : ((⟨2, 1, ⟨0, 0⟩, [⟨0, 0⟩],
      [⟨true, true, true⟩, ⟨false, true, true⟩],
      ⟨seedStream seed, 0⟩⟩ : Maze)).generate none =
      (⟨2, 1, ⟨0, 0⟩, [],
        [⟨true, false, true⟩, ⟨true, true, true⟩], ⟨seedStream seed, 4⟩⟩, true) := by
    rw [generate_none_eq]
    exact generateN_mono_eq (by norm_num [usizeMax]) (c8_run4 seed)
  refine ⟨?_, ?_, ?_, ?_, ?_, ?_, ?_, ?_⟩
  · rw [show ((⟨2, 1, ⟨0, 0⟩, [⟨0, 0⟩],
      [⟨true, true, true⟩, ⟨false, true, true⟩],
      ⟨seedStream seed, 0⟩⟩ : Maze)).gen_step =
      (⟨2, 1, ⟨1, 0⟩, [⟨1, 0⟩, ⟨0, 0⟩],
        [⟨true, false, true⟩, ⟨true, true, true⟩], ⟨seedStream seed, 1⟩⟩, false)
      from c8_step1 seed]
  · rw [c8_run4]
  · rw [c8_run3]
  · rw [hgen]
  · rw [hgen]
    rfl
  · rw [hgen]
    rfl
  · rw [hgen]
    rfl
  · rw [hgen]
    rfl

/-- C8, witness: the 2×1 scenario at seed 0. -/
theorem c8_scenario_2x1_witness :
    ((⟨2, 1, ⟨0, 0⟩, [⟨0, 0⟩], [⟨true, true, true⟩, ⟨false, true, true⟩],
        ⟨seedStream 0, 0⟩⟩ : Maze)).gen_step.1.cursor = ⟨1, 0⟩ ∧
      (generateN (⟨2, 1, ⟨0, 0⟩, [⟨0, 0⟩],
        [⟨true, true, true⟩, ⟨false, true, true⟩],
        ⟨seedStream 0, 0⟩⟩ : Maze) 4).2 = true :=
  ⟨(c8_scenario_2x1 (from_seed_2_1 0)).1, (c8_scenario_2x1 (from_seed_2_1 0)).2.1⟩

/-- C9: for `from_seed(1, 1, 0)`, the first `step` returns `false` (it
pops the lone tail entry without touching the cells or the cursor), the
second `step` returns `true`, and the single cell ends visited with both
walls still present. -/
theorem c9_scenario_1x1 {m0 : Maze} (hm : from_seed 1 1 0 = some m0) :
    m0.gen_step.2 = false ∧
      m0.gen_step.1.cursor = m0.cursor ∧
      m0.gen_step.1.cells = m0.cells ∧
      m0.gen_step.1.tail = [] ∧
      m0.gen_step.1.gen_step.2 = true ∧
      m0.gen_step.1.gen_step.1.get_cell 0 0 = ⟨true, true, true⟩ := by
  rw [from_seed_1_1 0] at hm
  cases hm
  have h1 := c9_step1 0
  have h2 := c9_step2 0
  refine ⟨?_, ?_, ?_, ?_, ?_, ?_⟩
  · rw [h1]
  · rw [h1]
  · rw [h1]
  · rw [h1]
  · rw [h1]
    rw [h2]
  · rw [h1]
    rw [h2]
    rfl

/-- C9, witness: the 1×1 scenario on the constructed maze. -/
theorem c9_scenario_1x1_witness :
    ((⟨1, 1, ⟨0, 0⟩, [⟨0, 0⟩], [⟨true, true, true⟩],
        ⟨seedStream 0, 0⟩⟩ : Maze)).gen_step.2 = false ∧
      ((⟨1, 1, ⟨0, 0⟩, [⟨0, 0⟩], [⟨true, true, true⟩],
        ⟨seedStream 0, 0⟩⟩ : Maze)).gen_step.1.gen_step.2 = true :=
  ⟨(c9_scenario_1x1 (from_seed_1_1 0)).1,
    (c9_scenario_1x1 (from_seed_1_1 0)).2.2.2.2.1⟩

/-- C10: with an empty grid (width·height = 0) both constructors fail
during construction itself — the model returns `none` for the panic at
`this.cells[0]` — so no maze with an empty cell store is ever produced. -/
theorem c10_empty_grid (w h : Nat) (hwh : w * h = 0) (seed : Nat) (entropy : Rng) :
    from_seed w h seed = none ∧ new w h entropy = none := by
  have hmk : ∀ rng : Rng, mkMaze w h rng = none := by
    intro rng
    simp only [mkMaze, if_pos hwh]
  exact ⟨hmk _, hmk _⟩

/-- C10, witness: the 0×5 constructors fail. -/
theorem c10_empty_grid_witness :
    from_seed 0 5 7 = none ∧ new 0 5 ⟨seedStream 0, 0⟩ = none :=
  c10_empty_grid 0 5 rfl 7 ⟨seedStream 0, 0⟩

end Maze

end MazeRs
